import Mathlib

/-!
# gosince: API line parser, documentation URL constructor and validators

A shallow embedding of `dbupdate/dbupdate.go` and of the two validators of
`webserver/api-webservice.go`.

* Go strings are modelled as lists of characters (`Str`); only valid UTF-8
  strings are represented.
* The regular expressions of the source are embedded pattern by pattern as
  lists of atoms and executed by a backtracking matcher with Go's
  leftmost-first semantics (`run`, `FindStringSubmatch`).
* A Go `map` is an association list; its iteration order is an arbitrary
  permutation of the entries, so `getAPIRecord` takes the order as an argument.
* A Go result pair `(*APIRecord, error)` is a pair of options, `none` for `nil`.
* A response body is given by its lines, the texts between the line feeds;
  `bufio.Scanner` reads them with its default buffer of `MaxScanTokenSize` bytes.
-/

namespace Gosince

/-- Go strings, as lists of runes. -/
abbrev Str := List Char

/-! ## Go standard library: `unicode`, `strings`, `path/filepath` -/

/-- The predicate `unicode.IsSpace`: the runes with the White_Space property. -/
def isSpace (c : Char) : Bool :=
  c == '\t' || c == '\n' || c == '\x0b' || c == '\x0c' || c == '\r' || c == ' ' ||
  c == '\u0085' || c == '\u00a0' || c == '\u1680' ||
  ('\u2000' ≤ c && c ≤ '\u200a') ||
  c == '\u2028' || c == '\u2029' || c == '\u202f' || c == '\u205f' || c == '\u3000'

/-- The function `strings.TrimSpace`: leading and trailing white space removed. -/
def TrimSpace (s : Str) : Str :=
  (s.dropWhile isSpace).rdropWhile isSpace

/-- The function `strings.HasPrefix`. -/
def HasPrefix (s pre : Str) : Bool :=
  pre.isPrefixOf s

/-- The function `strings.HasSuffix`. -/
def HasSuffix (s suf : Str) : Bool :=
  suf.reverse.isPrefixOf s.reverse

/-- The function `strings.TrimPrefix`: `s` without the leading `pre`, or `s` itself. -/
def TrimPrefix (s pre : Str) : Str :=
  if HasPrefix s pre then s.drop pre.length else s

/-- The function `strings.TrimSuffix`: `s` without the trailing `suf`, or `s` itself. -/
def TrimSuffix (s suf : Str) : Str :=
  if HasSuffix s suf then s.take (s.length - suf.length) else s

/-- The function `filepath.Base` for the separator `/` (no volume names): the
last element of the path, trailing slashes removed first; `.` for the empty
path and `/` for a path of slashes only. -/
def filepathBase (path : Str) : Str :=
  if path = [] then ['.']
  else
    let stripped := (path.reverse.dropWhile (· == '/')).reverse
    let last := (stripped.reverse.takeWhile (· != '/')).reverse
    if last = [] then ['/'] else last

/-- The length of a string in bytes, `len(s)`: the sum of the UTF-8 sizes of its
runes. -/
def utf8Len (s : Str) : Nat :=
  (s.map Char.utf8Size).sum

/-- The constant `bufio.MaxScanTokenSize`, the size of the largest buffer a
`bufio.Scanner` allocates by default. -/
def MaxScanTokenSize : Nat :=
  64 * 1024

/-- The helper `dropCR` of `bufio.ScanLines`: one trailing carriage return removed. -/
def dropCR (data : Str) : Str :=
  if data.getLast? = some '\r' then data.dropLast else data

/-- One call of `scanner.Scan()` with the split function `bufio.ScanLines` and
the default buffer, followed by `scanner.Text()`. The input still to read is
given by its lines, the texts between the line feeds. The result is the next
line without its trailing carriage return, and the lines left; it is `none` at
the end of the input and when the next line does not fit into the buffer of
`MaxScanTokenSize` bytes together with its line feed (`ErrTooLong`, after which
every call returns false). -/
def scannerScan : List Str → Option (Str × List Str)
  | [] => none
  | line :: more =>
    if MaxScanTokenSize ≤ utf8Len line then none else some (dropCR line, more)

/-! ## Go standard library: the fragment of `regexp` used by the source -/

/-- The character classes that occur in the patterns of the source. -/
inductive Cls
  /-- The class `\w`, that is `[0-9A-Za-z_]`. -/
  | word
  /-- The class `\S`, the complement of `[\t\n\f\r ]`. -/
  | nonSpace
  /-- The class `.`, every rune but the line feed. -/
  | dot
  /-- The class `[^\(\)]`. -/
  | notParen
  deriving DecidableEq, Repr

/-- Membership of a rune in a class. -/
def Cls.test : Cls → Char → Bool
  | .word, c =>
    ('0' ≤ c && c ≤ '9') || ('A' ≤ c && c ≤ 'Z') || c == '_' || ('a' ≤ c && c ≤ 'z')
  | .nonSpace, c => !(c == '\t' || c == '\n' || c == '\x0c' || c == '\r' || c == ' ')
  | .dot, c => !(c == '\n')
  | .notParen, c => !(c == '(' || c == ')')

/-- The pieces a pattern of the source is a concatenation of. -/
inductive Atom
  /-- The anchor `^` (beginning of text). -/
  | bot
  /-- The anchor `$` (end of text, no multi-line flag). -/
  | eot
  /-- One literal rune. -/
  | chr (c : Char)
  /-- An optional literal rune, `c?`. -/
  | opt (c : Char)
  /-- A repetition `k+` (greedy) or `k+?` (lazy) of a class, inside a capture group
  when `capture` is set. -/
  | plus (k : Cls) (greedy : Bool) (capture : Bool)
  deriving DecidableEq, Repr

/-- A compiled pattern: the concatenation of its atoms. -/
abbrev Regexp := List Atom

/-- A literal string inside a pattern. -/
def lit (s : String) : Regexp :=
  s.toList.map Atom.chr

/-- A match: the matched text and the texts of the capture groups, in order. -/
abbrev Captures := Str × List Str

/-- Lazy repetition `k+?`: consume one rune of the class, then prefer the
continuation over consuming more. Returns the consumed runes and what the
continuation matched. -/
def lazyLoop (k : Cls) (cont : Str → Option Captures) : Str → Option (Str × Captures)
  | [] => none
  | x :: t =>
    if k.test x then
      match cont t with
      | some r => some ([x], r)
      | none => (lazyLoop k cont t).map fun wr => (x :: wr.1, wr.2)
    else none

/-- Greedy repetition `k+`: consume one rune of the class, then prefer consuming
more over the continuation. -/
def greedyLoop (k : Cls) (cont : Str → Option Captures) : Str → Option (Str × Captures)
  | [] => none
  | x :: t =>
    if k.test x then
      match greedyLoop k cont t with
      | some wr => some (x :: wr.1, wr.2)
      | none => (cont t).map fun r => ([x], r)
    else none

/-- Backtracking match of a pattern at the current position: the first match in
priority order. The flag says whether the position is the beginning of the text. -/
def run : Regexp → Bool → Str → Option Captures
  | [], _, _ => some ([], [])
  | .bot :: ns, b, inp => if b then run ns b inp else none
  | .eot :: ns, b, inp => if inp.isEmpty then run ns b inp else none
  | .chr c :: ns, _, inp =>
    match inp with
    | [] => none
    | x :: t => if x = c then (run ns false t).map fun r => (x :: r.1, r.2) else none
  | .opt c :: ns, b, inp =>
    match inp with
    | [] => run ns b []
    | x :: t =>
      if x = c then
        match run ns false t with
        | some r => some (x :: r.1, r.2)
        | none => run ns b (x :: t)
      else run ns b (x :: t)
  | .plus k g cap :: ns, _, inp =>
    (if g then greedyLoop k (run ns false) inp else lazyLoop k (run ns false) inp).map
      fun wr => (wr.1 ++ wr.2.1, if cap then wr.1 :: wr.2.2 else wr.2.2)

/-- Leftmost search: the match at the earliest start offset. -/
def findFrom (re : Regexp) : Bool → Str → Option Captures
  | b, [] => run re b []
  | b, x :: t =>
    match run re b (x :: t) with
    | some r => some r
    | none => findFrom re false t

/-- The method `(*Regexp).FindStringSubmatch`: the matched text followed by the
capture groups, or the empty slice (`nil`) when there is no match. -/
def FindStringSubmatch (re : Regexp) (s : Str) : List Str :=
  match findFrom re true s with
  | some r => r.1 :: r.2
  | none => []

/-- The method `(*Regexp).FindString`: the matched text, or the empty string when
there is no match. -/
def FindString (re : Regexp) (s : Str) : Str :=
  match findFrom re true s with
  | some r => r.1
  | none => []

/-! ## `record.go` -/

/-- The struct `gosince.APIRecord`. -/
structure APIRecord where
  Name : Str := []
  Category : Str := []
  Version : Str := []
  PackageName : Str := []
  Description : Str := []
  GolangURL : Str := []
  deriving DecidableEq, Repr

/-! ## `dbupdate/dbupdate.go` -/

/-- The patterns `^pkg ([^\(\)]+?),` and `^pkg (\S+?) \(.+?\),`, in slice order. -/
def packageNameREs : List Regexp :=
  [ [.bot] ++ lit "pkg " ++ [.plus .notParen false true, .chr ','],
    [.bot] ++ lit "pkg " ++ [.plus .nonSpace false true] ++ lit " (" ++
      [.plus .dot false false] ++ lit ")," ]

/-- The entries of the map `categoriesRegexMap`, in the order of the literal:
`^const (\w+?) `, `^var (\w+?) `, `^type (\w+?) `, `^func (\w+?)\(` and
`^method \(.+\) (\w+?)\(`. -/
def categoriesRegexMap : List (Str × Regexp) :=
  [ ("const".toList, [.bot] ++ lit "const " ++ [.plus .word false true, .chr ' ']),
    ("var".toList, [.bot] ++ lit "var " ++ [.plus .word false true, .chr ' ']),
    ("type".toList, [.bot] ++ lit "type " ++ [.plus .word false true, .chr ' ']),
    ("func".toList, [.bot] ++ lit "func " ++ [.plus .word false true, .chr '(']),
    ("method".toList, [.bot] ++ lit "method (" ++ [.plus .dot true false] ++ lit ") " ++
      [.plus .word false true, .chr '(']) ]

/-- The pattern `^method \(\*?(\w+?)\) `. -/
def receiverRE : Regexp :=
  [.bot] ++ lit "method (" ++ [.opt '*', .plus .word false true] ++ lit ") "

/-- The first loop of `getAPIRecord`: try the package patterns in slice order,
keeping the last value of `matches`; stop at the first pattern with two results. -/
def packageLoop (s : Str) : List Regexp → APIRecord → List Str → APIRecord × List Str
  | [], record, ms => (record, ms)
  | re :: res, record, _ =>
    let ms := FindStringSubmatch re s
    if ms.length = 2 then ({ record with PackageName := ms.getD 1 [] }, ms)
    else packageLoop s res record ms

/-- The second loop of `getAPIRecord`: range over the category map in the given
iteration order, returning at the first pattern with two results. -/
def categoryLoop (s : Str) (record : APIRecord) :
    List (Str × Regexp) → Option APIRecord × Option Str
  | [] => (none, some ("could not match proper category ".toList ++ s))
  | (category, re) :: rest =>
    let ms := FindStringSubmatch re s
    if ms.length = 2 then (some { record with Category := category, Name := ms.getD 1 [] }, none)
    else categoryLoop s record rest

/-- The function `getAPIRecord`; `cats` is the order in which the `range` over
`categoriesRegexMap` visits the entries. -/
def getAPIRecord (cats : List (Str × Regexp)) (s : Str) : Option APIRecord × Option Str :=
  let st := packageLoop s packageNameREs {} []
  if st.1.PackageName.length = 0 then
    (none, some ("could not match package name ".toList ++ s))
  else
    let s1 := TrimPrefix s (st.2.getD 0 [])
    let s2 := TrimSpace s1
    categoryLoop s2 { st.1 with Description := s2 } cats

/-- The function `constructGolangURL`. -/
def constructGolangURL (category name pkgName description : Str) : Str :=
  if category = "method".toList then
    let ms := FindStringSubmatch receiverRE description
    if ms.length = 2 then
      "https://golang.org/pkg/".toList ++ pkgName ++ "/#".toList ++ ms.getD 1 [] ++
        ".".toList ++ name
    else "https://golang.org/pkg/".toList ++ pkgName ++ "/#".toList ++ name
  else "https://golang.org/pkg/".toList ++ pkgName ++ "/#".toList ++ name

/-- The loop `for scanner.Scan()` of `produceAPIRecord` over the lines of the
body still to read; the channel is the list of the records sent so far, oldest
first. When the scanner stops, at the end of the body or with an error that is
logged, the loop ends. The result is `none` when the loop dereferences a nil
record (nil error together with a nil record). -/
def scanLoop (cats : List (Str × Regexp)) (apiVersion : Str) :
    List Str → List APIRecord → Option (List APIRecord)
  | [], recordChan => some recordChan
  | line :: more, recordChan =>
    match scannerScan (line :: more) with
    | none => some recordChan
    | some (text, _) =>
      let s := TrimSpace text
      if s.length = 0 || HasPrefix s "#".toList then scanLoop cats apiVersion more recordChan
      else
        match getAPIRecord cats s with
        | (_, some _) => scanLoop cats apiVersion more recordChan
        | (none, none) => none
        | (some r, none) =>
          let r1 := { r with Version := apiVersion }
          let r2 := { r1 with
            GolangURL := constructGolangURL r1.Category r1.Name r1.PackageName r1.Description }
          scanLoop cats apiVersion more (recordChan ++ [r2])

/-- The function `produceAPIRecord`; `body` is the reply to `http.Get`: `none` for
an error, else the lines of the response body (the texts between its line
feeds). Returns the channel afterwards, or `none` for a nil dereference. -/
def produceAPIRecord (cats : List (Str × Regexp)) (apiURL : Str) (body : Option (List Str))
    (recordChan : List APIRecord) : Option (List APIRecord) :=
  match body with
  | none => some recordChan
  | some lines =>
    let apiVersion := filepathBase apiURL
    let apiVersion := TrimPrefix apiVersion "go".toList
    let apiVersion := TrimSuffix apiVersion ".txt".toList
    scanLoop cats apiVersion lines recordChan

/-- An error value as `insertRecordToDB` inspects it: a `gosqlite3.Error` with
its primary and extended result codes, or any other error. -/
inductive DBError
  | sqlite (code : Nat) (extendedCode : Nat)
  | other (msg : Str)
  deriving DecidableEq, Repr

/-- What the store answers to the INSERT: the error of `db.ExecContext` and, when
that is `nil`, the pair that `result.RowsAffected()` returns. -/
structure ExecReply where
  execErr : Option DBError
  rows : Int
  rowsErr : Option DBError
  deriving DecidableEq, Repr

/-- The function `insertRecordToDB`, on the reply of the store. -/
def insertRecordToDB (reply : ExecReply) : Option DBError :=
  match reply.execErr with
  | some err =>
    match err with
    | .sqlite code _ => if code = 19 then none else some err
    | .other _ => some err
  | none =>
    if reply.rowsErr ≠ none || reply.rows ≠ 1 then reply.rowsErr
    else none

/-! ## `webserver/api-webservice.go` -/

/-- The function `isValidCategory`. -/
def isValidCategory (cat : Str) : Option Str :=
  if ["const".toList, "func".toList, "method".toList, "type".toList, "var".toList].any
      (fun s => cat = s) then none
  else some (cat ++ " is not one of \"const\", \"func\", \"method\", \"type\", \"var\"".toList)

/-- The function `isValidName`, with its pattern `^\w+$`. -/
def isValidName (name : Str) : Option Str :=
  if FindString [.bot, .plus .word true false, .eot] name = [] then
    some (name ++ " should only contains [A-Za-z0-9_]".toList)
  else none

/-! ## Declarative reading of the patterns -/

/-- The relation "pattern `re` matches a prefix of `inp`": `Matches re b inp (m, gs)`
holds when `inp` starts with a text `m` of the language of `re` whose capture
groups are `gs`; `b` says whether the position is the beginning of the text.
No search order is involved. -/
def Matches : Regexp → Bool → Str → Captures → Prop
  | [], _, _, r => r = ([], [])
  | .bot :: ns, b, inp, r => b = true ∧ Matches ns b inp r
  | .eot :: ns, b, inp, r => inp = [] ∧ Matches ns b inp r
  | .chr c :: ns, _, inp, r =>
    ∃ t r1, inp = c :: t ∧ Matches ns false t r1 ∧ r = (c :: r1.1, r1.2)
  | .opt c :: ns, b, inp, r =>
    (∃ t r1, inp = c :: t ∧ Matches ns false t r1 ∧ r = (c :: r1.1, r1.2)) ∨ Matches ns b inp r
  | .plus k _ cap :: ns, _, inp, r =>
    ∃ w t r1, w ≠ [] ∧ (∀ c ∈ w, k.test c = true) ∧ inp = w ++ t ∧ Matches ns false t r1 ∧
      r = (w ++ r1.1, if cap then w :: r1.2 else r1.2)

/-- The pattern matches somewhere in the text `s`. -/
def MatchesIn (re : Regexp) (s : Str) : Prop :=
  ∃ pre t r, s = pre ++ t ∧ Matches re (decide (pre = [])) t r

/-- The text has no leading and no trailing white space. -/
def Trimmed (s : Str) : Prop :=
  (∀ c, s.head? = some c → isSpace c = false) ∧ (∀ c, s.getLast? = some c → isSpace c = false)

/-- The classes of the capture groups of a pattern, in order. -/
def capClasses : Regexp → List Cls
  | [] => []
  | .plus k _ true :: ns => k :: capClasses ns
  | _ :: ns => capClasses ns

/-- The rune is an ASCII letter, an ASCII digit or the underscore. -/
def IsWordRune (c : Char) : Prop :=
  ('A' ≤ c ∧ c ≤ 'Z') ∨ ('a' ≤ c ∧ c ≤ 'z') ∨ ('0' ≤ c ∧ c ≤ '9') ∨ c = '_'

/-- Second definition, from the words of the specification: what one body line
contributes to the channel. Nothing for a line whose trimmed text is empty,
starts with `#` or is rejected by `getAPIRecord`; else the record of
`getAPIRecord` with the version stamped and the URL computed from the category,
the name, the package and the description. -/
def pushedRecord (cats : List (Str × Regexp)) (version : Str) (text : Str) : Option APIRecord :=
  if TrimSpace text = [] ∨ (TrimSpace text).head? = some '#' then none
  else if (getAPIRecord cats (TrimSpace text)).2 = none then
    (getAPIRecord cats (TrimSpace text)).1.map fun r =>
      { r with
        Version := version
        GolangURL := constructGolangURL r.Category r.Name r.PackageName r.Description }
  else none


/-! ## Checks on the fixtures of the test files -/

example : getAPIRecord categoriesRegexMap "pkg log/syslog (darwin-386), const LOG_ALERT = 1".toList
    = (some { Name := "LOG_ALERT".toList, Category := "const".toList,
              PackageName := "log/syslog".toList,
              Description := "const LOG_ALERT = 1".toList }, none) := by decide

example : getAPIRecord categoriesRegexMap
      "pkg archive/tar, method (*Header) FileInfo() os.FileInfo".toList
    = (some { Name := "FileInfo".toList, Category := "method".toList,
              PackageName := "archive/tar".toList,
              Description := "method (*Header) FileInfo() os.FileInfo".toList }, none) := by
  decide

example : (getAPIRecord categoriesRegexMap
      "pkg1 archive/tar, method (*Header) FileInfo() os.FileInfo".toList).1 = none := by decide

example : constructGolangURL "method".toList "String".toList "database/sql".toList
      "method (*Builder) String() string".toList
    = "https://golang.org/pkg/database/sql/#Builder.String".toList := by decide

example : isValidName "ab&".toList ≠ none ∧ isValidName "_ab".toList = none := by decide


/-! ## Lemmas on the string functions -/

theorem rdropWhile_append_of_exists {α : Type} (p : α → Bool) (a l : List α)
    (h : ∃ x ∈ l, p x = false) : List.rdropWhile p (a ++ l) = a ++ List.rdropWhile p l := by
  have hne : ¬ (List.dropWhile p l.reverse).isEmpty = true := by
    intro he
    have h1 : List.dropWhile p l.reverse = [] := List.isEmpty_iff.mp he
    rw [List.dropWhile_eq_nil_iff] at h1
    obtain ⟨x, hx, hpx⟩ := h
    have := h1 x (List.mem_reverse.mpr hx)
    simp [hpx] at this
  simp only [List.rdropWhile, List.reverse_append, List.dropWhile_append, hne, if_false,
    List.reverse_reverse, Bool.false_eq_true]

theorem rdropWhile_suffix_mono {α : Type} (p : α → Bool) {l₁ l₂ : List α} (h : l₂ <:+ l₁) :
    List.rdropWhile p l₂ <:+ List.rdropWhile p l₁ := by
  obtain ⟨a, rfl⟩ := h
  by_cases hall : ∀ x ∈ l₂, p x = true
  · rw [List.rdropWhile_eq_nil_iff.mpr hall]
    exact List.nil_suffix
  · have hex : ∃ x ∈ l₂, p x = false := by
      by_contra hc
      apply hall
      intro x hx
      by_contra hpx
      exact hc ⟨x, hx, by simpa using hpx⟩
    rw [rdropWhile_append_of_exists p a l₂ hex]
    exact List.suffix_append _ _

theorem dropWhile_suffix_append {α : Type} (p : α → Bool) (m t : List α) :
    List.dropWhile p t <:+ List.dropWhile p (m ++ t) := by
  rw [List.dropWhile_append]
  split
  · exact List.suffix_refl _
  · exact (List.dropWhile_suffix p).trans (List.suffix_append _ _)

/-- Trimming a tail of a text gives a tail of the trimmed text. -/
theorem TrimSpace_suffix (m t : Str) : TrimSpace t <:+ TrimSpace (m ++ t) :=
  rdropWhile_suffix_mono _ (dropWhile_suffix_append _ _ _)

theorem TrimSpace_of_Trimmed {s : Str} (h : Trimmed s) : TrimSpace s = s := by
  have h1 : s.dropWhile isSpace = s := by
    cases s with
    | nil => rfl
    | cons x t =>
      have := h.1 x rfl
      simp [List.dropWhile_cons, this]
  unfold TrimSpace
  rw [h1, List.rdropWhile_eq_self_iff]
  intro hl
  have := h.2 (s.getLast hl) (List.getLast?_eq_getLast s hl)
  simp [this]

theorem Trimmed_TrimSpace (s : Str) : Trimmed (TrimSpace s) := by
  constructor
  · intro c hc
    unfold TrimSpace at hc
    have hpre : List.rdropWhile isSpace (s.dropWhile isSpace) <+: s.dropWhile isSpace :=
      List.rdropWhile_prefix _ _
    obtain ⟨u, hu⟩ := hpre
    cases hr : List.rdropWhile isSpace (s.dropWhile isSpace) with
    | nil => simp [hr] at hc
    | cons y ys =>
      rw [hr] at hc hu
      have hy : y = c := by simpa using hc
      subst hy
      have h2 := List.head?_dropWhile_not isSpace s
      rw [← hu] at h2
      simpa using h2
  · intro c hc
    unfold TrimSpace at hc
    by_cases hne : List.rdropWhile isSpace (s.dropWhile isSpace) = []
    · simp [hne] at hc
    · have := List.rdropWhile_last_not isSpace _ hne
      rw [List.getLast?_eq_getLast _ hne] at hc
      have hc' : (List.rdropWhile isSpace (s.dropWhile isSpace)).getLast hne = c := by
        simpa using hc
      rw [hc'] at this
      simpa using this

theorem TrimPrefix_append (m t : Str) : TrimPrefix (m ++ t) m = t := by
  unfold TrimPrefix HasPrefix
  simp


/-! ## The matcher: basic lemmas -/

theorem run_bot (ns : Regexp) (inp : Str) : run (.bot :: ns) true inp = run ns true inp := by
  simp [run]

theorem run_bot_false (ns : Regexp) (inp : Str) : run (.bot :: ns) false inp = none := by
  simp [run]

theorem findFrom_false_bot (ns : Regexp) (s : Str) : findFrom (.bot :: ns) false s = none := by
  induction s with
  | nil => simp [findFrom, run]
  | cons x t ih => simp [findFrom, run, ih]

theorem findFrom_bot (ns : Regexp) (s : Str) :
    findFrom (.bot :: ns) true s = run ns true s := by
  cases s with
  | nil => simp [findFrom, run]
  | cons x t =>
    simp only [findFrom, run_bot, findFrom_false_bot]
    cases run ns true (x :: t) <;> rfl

theorem run_chr_cons (c : Char) (ns : Regexp) (b : Bool) (t : Str) :
    run (.chr c :: ns) b (c :: t) = (run ns false t).map fun r => (c :: r.1, r.2) := by
  simp [run]

theorem run_chr_some {c : Char} {ns : Regexp} {b : Bool} {inp : Str} {r : Captures}
    (h : run (.chr c :: ns) b inp = some r) :
    ∃ t r1, inp = c :: t ∧ run ns false t = some r1 ∧ r = (c :: r1.1, r1.2) := by
  cases inp with
  | nil => simp [run] at h
  | cons x t =>
    by_cases hx : x = c
    · subst hx
      rw [run_chr_cons] at h
      cases hr : run ns false t with
      | none => simp [hr] at h
      | some r1 =>
        rw [hr] at h
        exact ⟨t, r1, rfl, hr, by simpa using h.symm⟩
    · simp [run, hx] at h

theorem run_chr_ne {c x : Char} (ns : Regexp) (b : Bool) (t : Str) (h : x ≠ c) :
    run (.chr c :: ns) b (x :: t) = none := by
  simp [run, h]

/-- Running a non-empty literal against a text that starts with it. -/
theorem run_chrs_append (cs : Str) (hcs : cs ≠ []) (ns : Regexp) (b : Bool) (t : Str) :
    run (cs.map Atom.chr ++ ns) b (cs ++ t)
      = (run ns false t).map fun r => (cs ++ r.1, r.2) := by
  induction cs generalizing b with
  | nil => exact absurd rfl hcs
  | cons c cs ih =>
    by_cases h : cs = []
    · subst h
      simp [run]
    · simp only [List.map_cons, List.cons_append, run_chr_cons, ih h]
      cases run ns false t <;> simp

/-- A match of a pattern that starts with a non-empty literal starts with the literal. -/
theorem run_chrs_some {cs : Str} (hcs : cs ≠ []) {ns : Regexp} {b : Bool} {inp : Str}
    {r : Captures} (h : run (cs.map Atom.chr ++ ns) b inp = some r) :
    ∃ t r1, inp = cs ++ t ∧ run ns false t = some r1 ∧ r = (cs ++ r1.1, r1.2) := by
  induction cs generalizing b inp r with
  | nil => exact absurd rfl hcs
  | cons c cs ih =>
    simp only [List.map_cons, List.cons_append] at h
    obtain ⟨t, r1, rfl, h1, rfl⟩ := run_chr_some h
    by_cases hc : cs = []
    · subst hc
      exact ⟨t, r1, rfl, h1, rfl⟩
    · obtain ⟨t2, r2, rfl, h2, rfl⟩ := ih hc h1
      exact ⟨t2, r2, rfl, h2, rfl⟩

theorem lazyLoop_sound {k : Cls} {cont : Str → Option Captures} {inp w : Str} {r : Captures}
    (h : lazyLoop k cont inp = some (w, r)) :
    w ≠ [] ∧ (∀ c ∈ w, k.test c = true) ∧ ∃ t, inp = w ++ t ∧ cont t = some r := by
  induction inp generalizing w with
  | nil => simp [lazyLoop] at h
  | cons x t ih =>
    unfold lazyLoop at h
    by_cases hx : k.test x = true
    · simp only [hx, if_true] at h
      cases hc : cont t with
      | some r1 =>
        simp only [hc, Option.some.injEq, Prod.mk.injEq] at h
        obtain ⟨rfl, rfl⟩ := h
        exact ⟨by simp, by simpa using hx, t, rfl, hc⟩
      | none =>
        simp only [hc] at h
        cases hl : lazyLoop k cont t with
        | none => simp [hl] at h
        | some wr =>
          simp only [hl, Option.map_some', Option.some.injEq, Prod.mk.injEq] at h
          obtain ⟨rfl, rfl⟩ := h
          obtain ⟨_, h2, t2, rfl, h3⟩ := ih (w := wr.1) (by rw [hl])
          refine ⟨by simp, ?_, t2, rfl, h3⟩
          intro c hc1
          rcases List.mem_cons.mp hc1 with rfl | hc2
          · exact hx
          · exact h2 c hc2
    · simp [hx] at h

theorem greedyLoop_sound {k : Cls} {cont : Str → Option Captures} {inp w : Str} {r : Captures}
    (h : greedyLoop k cont inp = some (w, r)) :
    w ≠ [] ∧ (∀ c ∈ w, k.test c = true) ∧ ∃ t, inp = w ++ t ∧ cont t = some r := by
  induction inp generalizing w with
  | nil => simp [greedyLoop] at h
  | cons x t ih =>
    unfold greedyLoop at h
    by_cases hx : k.test x = true
    · simp only [hx, if_true] at h
      cases hl : greedyLoop k cont t with
      | some wr =>
        simp only [hl, Option.some.injEq, Prod.mk.injEq] at h
        obtain ⟨rfl, rfl⟩ := h
        obtain ⟨_, h2, t2, rfl, h3⟩ := ih (w := wr.1) (by rw [hl])
        refine ⟨by simp, ?_, t2, rfl, h3⟩
        intro c hc1
        rcases List.mem_cons.mp hc1 with rfl | hc2
        · exact hx
        · exact h2 c hc2
      | none =>
        simp only [hl] at h
        cases hc : cont t with
        | none => simp [hc] at h
        | some r1 =>
          simp only [hc, Option.map_some', Option.some.injEq, Prod.mk.injEq] at h
          obtain ⟨rfl, rfl⟩ := h
          exact ⟨by simp, by simpa using hx, t, rfl, hc⟩
    · simp [hx] at h

/-- A lazy repetition stops at the first place where the continuation can start:
when the continuation fails in front of every rune of `w`, the loop consumes
exactly `w`. -/
theorem lazyLoop_exact {k : Cls} {cont : Str → Option Captures} {w t : Str} {r : Captures}
    (hw : w ≠ []) (hk : ∀ c ∈ w, k.test c = true)
    (hcont : ∀ c ∈ w, ∀ u, cont (c :: u) = none) (hr : cont t = some r) :
    lazyLoop k cont (w ++ t) = some (w, r) := by
  induction w with
  | nil => exact absurd rfl hw
  | cons x w ih =>
    have hx : k.test x = true := hk x (by simp)
    by_cases hw1 : w = []
    · subst hw1
      simp [lazyLoop, hx, hr]
    · obtain ⟨y, w2, rfl⟩ := List.exists_cons_of_ne_nil hw1
      have hy : cont (y :: (w2 ++ t)) = none := hcont y (by simp) _
      have := ih hw1 (fun c hc => hk c (List.mem_cons_of_mem _ hc))
        (fun c hc => hcont c (List.mem_cons_of_mem _ hc))
      simp only [List.cons_append] at this hy ⊢
      rw [lazyLoop]
      simp [hx, hy, this]

theorem run_plus_some {k : Cls} {g cap : Bool} {ns : Regexp} {b : Bool} {inp : Str}
    {r : Captures} (h : run (.plus k g cap :: ns) b inp = some r) :
    ∃ w t r1, w ≠ [] ∧ (∀ c ∈ w, k.test c = true) ∧ inp = w ++ t ∧
      run ns false t = some r1 ∧ r = (w ++ r1.1, if cap then w :: r1.2 else r1.2) := by
  unfold run at h
  cases g with
  | true =>
    simp only [if_true] at h
    cases hl : greedyLoop k (run ns false) inp with
    | none => simp [hl] at h
    | some wr =>
      obtain ⟨h1, h2, t, h3, h4⟩ := greedyLoop_sound (w := wr.1) (r := wr.2) (by rw [hl])
      simp only [hl, Option.map_some', Option.some.injEq] at h
      exact ⟨wr.1, t, wr.2, h1, h2, h3, h4, h.symm⟩
  | false =>
    simp only [Bool.false_eq_true, if_false] at h
    cases hl : lazyLoop k (run ns false) inp with
    | none => simp [hl] at h
    | some wr =>
      obtain ⟨h1, h2, t, h3, h4⟩ := lazyLoop_sound (w := wr.1) (r := wr.2) (by rw [hl])
      simp only [hl, Option.map_some', Option.some.injEq] at h
      exact ⟨wr.1, t, wr.2, h1, h2, h3, h4, h.symm⟩

theorem run_lazy_exact {k : Cls} {cap : Bool} {ns : Regexp} {b : Bool} {w t : Str}
    {r : Captures} (hw : w ≠ []) (hk : ∀ c ∈ w, k.test c = true)
    (hcont : ∀ c ∈ w, ∀ u, run ns false (c :: u) = none) (hr : run ns false t = some r) :
    run (.plus k false cap :: ns) b (w ++ t)
      = some (w ++ r.1, if cap then w :: r.2 else r.2) := by
  unfold run
  simp [lazyLoop_exact hw hk hcont hr]


/-! ## The matcher against the declarative reading -/

theorem run_sound {re : Regexp} {b : Bool} {inp : Str} {r : Captures}
    (h : run re b inp = some r) : Matches re b inp r := by
  induction re generalizing b inp r with
  | nil => simpa [run, Matches, eq_comm] using h
  | cons a ns ih =>
    cases a with
    | bot =>
      cases b with
      | true => rw [run_bot] at h; exact ⟨rfl, ih h⟩
      | false => simp [run] at h
    | eot =>
      cases inp with
      | nil => simp only [run, List.isEmpty_nil, if_true] at h; exact ⟨rfl, ih h⟩
      | cons x t => simp [run] at h
    | chr c =>
      obtain ⟨t, r1, h1, h2, h3⟩ := run_chr_some h
      exact ⟨t, r1, h1, ih h2, h3⟩
    | opt c =>
      cases inp with
      | nil => simp only [run] at h; exact Or.inr (ih h)
      | cons x t =>
        simp only [run] at h
        by_cases hx : x = c
        · subst hx
          simp only [if_true] at h
          cases hr : run ns false t with
          | some r1 =>
            simp only [hr, Option.some.injEq] at h
            exact Or.inl ⟨t, r1, rfl, ih hr, h.symm⟩
          | none =>
            simp only [hr] at h
            exact Or.inr (ih h)
        · simp only [hx, if_false] at h
          exact Or.inr (ih h)
    | plus k g cap =>
      obtain ⟨w, t, r1, h1, h2, h3, h4, h5⟩ := run_plus_some h
      exact ⟨w, t, r1, h1, h2, h3, ih h4, h5⟩

theorem lazyLoop_isSome {k : Cls} {cont : Str → Option Captures} {w t : Str}
    (hw : w ≠ []) (hk : ∀ c ∈ w, k.test c = true) (hr : (cont t).isSome) :
    (lazyLoop k cont (w ++ t)).isSome := by
  induction w with
  | nil => exact absurd rfl hw
  | cons x w ih =>
    have hx : k.test x = true := hk x (by simp)
    rw [List.cons_append, lazyLoop]
    simp only [hx, if_true]
    cases hc : cont (w ++ t) with
    | some r1 => rfl
    | none =>
      by_cases hw1 : w = []
      · subst hw1
        rw [List.nil_append] at hc
        simp [hc] at hr
      · have := ih hw1 (fun c hc => hk c (List.mem_cons_of_mem _ hc))
        simpa using this

theorem greedyLoop_isSome {k : Cls} {cont : Str → Option Captures} {w t : Str}
    (hw : w ≠ []) (hk : ∀ c ∈ w, k.test c = true) (hr : (cont t).isSome) :
    (greedyLoop k cont (w ++ t)).isSome := by
  induction w with
  | nil => exact absurd rfl hw
  | cons x w ih =>
    have hx : k.test x = true := hk x (by simp)
    rw [List.cons_append, greedyLoop]
    simp only [hx, if_true]
    cases hl : greedyLoop k cont (w ++ t) with
    | some wr => rfl
    | none =>
      by_cases hw1 : w = []
      · subst hw1
        simpa using hr
      · have := ih hw1 (fun c hc => hk c (List.mem_cons_of_mem _ hc))
        simp [hl] at this

/-- The backtracking search is complete: it finds a match whenever one exists. -/
theorem run_complete {re : Regexp} {b : Bool} {inp : Str} {r : Captures}
    (h : Matches re b inp r) : (run re b inp).isSome := by
  induction re generalizing b inp r with
  | nil => simp [run]
  | cons a ns ih =>
    cases a with
    | bot =>
      obtain ⟨rfl, h1⟩ := h
      rw [run_bot]; exact ih h1
    | eot =>
      obtain ⟨rfl, h1⟩ := h
      simp only [run, List.isEmpty_nil, if_true]; exact ih h1
    | chr c =>
      obtain ⟨t, r1, rfl, h1, -⟩ := h
      rw [run_chr_cons]
      simpa using ih h1
    | opt c =>
      rcases h with ⟨t, r1, rfl, h1, -⟩ | h1
      · have := ih h1
        simp only [run, if_true]
        cases hr : run ns false t with
        | some r2 => rfl
        | none => simp [hr] at this
      · have := ih h1
        cases inp with
        | nil => simpa [run] using this
        | cons x t =>
          simp only [run]
          by_cases hx : x = c
          · simp only [hx, if_true]
            cases hr : run ns false t with
            | some r2 => rfl
            | none => simpa [hx] using this
          · simpa [hx] using this
    | plus k g cap =>
      obtain ⟨w, t, r1, h1, h2, rfl, h4, -⟩ := h
      have h5 := ih h4
      unfold run
      cases g with
      | true => simpa using greedyLoop_isSome h1 h2 h5
      | false => simpa using lazyLoop_isSome h1 h2 h5

theorem run_isSome_iff (re : Regexp) (b : Bool) (inp : Str) :
    (run re b inp).isSome ↔ ∃ r, Matches re b inp r := by
  constructor
  · intro h
    obtain ⟨r, hr⟩ := Option.isSome_iff_exists.mp h
    exact ⟨r, run_sound hr⟩
  · rintro ⟨r, hr⟩
    exact run_complete hr

theorem findFrom_isSome_iff (re : Regexp) (b : Bool) (s : Str) :
    (findFrom re b s).isSome ↔
      ∃ pre t r, s = pre ++ t ∧ Matches re (b && decide (pre = [])) t r := by
  induction s generalizing b with
  | nil =>
    simp only [findFrom, run_isSome_iff]
    constructor
    · rintro ⟨r, hr⟩
      exact ⟨[], [], r, rfl, by simpa using hr⟩
    · rintro ⟨pre, t, r, h1, h2⟩
      have hp : pre = [] := by
        cases pre with
        | nil => rfl
        | cons _ _ => simp at h1
      subst hp
      have ht : t = [] := by simpa using h1.symm
      subst ht
      exact ⟨r, by simpa using h2⟩
  | cons x u ih =>
    rw [findFrom]
    cases hr : run re b (x :: u) with
    | some r =>
      simp only [Option.isSome_some, true_iff]
      exact ⟨[], x :: u, r, rfl, by simpa using run_sound hr⟩
    | none =>
      simp only [ih]
      constructor
      · rintro ⟨pre, t, r, h1, h2⟩
        exact ⟨x :: pre, t, r, by simp [h1], by simpa using h2⟩
      · rintro ⟨pre, t, r, h1, h2⟩
        cases pre with
        | nil =>
          simp only [List.nil_append] at h1
          subst h1
          have := run_complete (by simpa using h2 : Matches re b (x :: u) r)
          simp [hr] at this
        | cons y pre =>
          simp only [List.cons_append, List.cons.injEq] at h1
          exact ⟨pre, t, r, h1.2, by simpa using h2⟩

/-- The method `FindStringSubmatch` returns a non-nil slice exactly when the
pattern matches somewhere in the text. -/
theorem FindStringSubmatch_ne_nil_iff (re : Regexp) (s : Str) :
    FindStringSubmatch re s ≠ [] ↔ MatchesIn re s := by
  have := findFrom_isSome_iff re true s
  simp only [Bool.true_and] at this
  unfold FindStringSubmatch MatchesIn
  rw [← this]
  cases findFrom re true s <;> simp


/-! ## Anchored patterns that start with a literal -/

theorem FindStringSubmatch_bot (ns : Regexp) (s : Str) :
    FindStringSubmatch (.bot :: ns) s
      = match run ns true s with
        | some r => r.1 :: r.2
        | none => [] := by
  unfold FindStringSubmatch
  rw [findFrom_bot]

theorem FindString_bot (ns : Regexp) (s : Str) :
    FindString (.bot :: ns) s
      = match run ns true s with
        | some r => r.1
        | none => [] := by
  unfold FindString
  rw [findFrom_bot]

theorem run_lit_append (w : String) (hw : w.toList ≠ []) (ns : Regexp) (b : Bool) (t : Str) :
    run (lit w ++ ns) b (w.toList ++ t)
      = (run ns false t).map fun r => (w.toList ++ r.1, r.2) :=
  run_chrs_append w.toList hw ns b t

theorem run_lit_end (w : String) (hw : w.toList ≠ []) (b : Bool) (t : Str) :
    run (lit w) b (w.toList ++ t) = some (w.toList, []) := by
  have := run_lit_append w hw [] b t
  simpa [run] using this

theorem run_lit_some {w : String} (hw : w.toList ≠ []) {ns : Regexp} {b : Bool} {inp : Str}
    {r : Captures} (h : run (lit w ++ ns) b inp = some r) :
    ∃ t r1, inp = w.toList ++ t ∧ run ns false t = some r1 ∧ r = (w.toList ++ r1.1, r1.2) :=
  run_chrs_some hw h

/-- A pattern that starts with a literal fails on a text with another first rune. -/
theorem run_lit_ne (w : String) {c x : Char} (hc : w.toList.head? = some c) (hx : x ≠ c)
    (ns : Regexp) (b : Bool) (u : Str) : run (lit w ++ ns) b (x :: u) = none := by
  unfold lit
  revert hc
  generalize w.toList = l
  intro hc
  cases l with
  | nil => simp at hc
  | cons y ys =>
    have hy : y = c := by simpa using hc
    subst hy
    simp only [List.map_cons, List.cons_append]
    exact run_chr_ne _ _ _ hx

theorem lazyLoop_stop {k : Cls} {cont : Str → Option Captures} {w : Str} {x : Char} {t : Str}
    (hk : ∀ c ∈ w, k.test c = true) (hcont : ∀ c ∈ w, ∀ u, cont (c :: u) = none)
    (hx : k.test x = false) (hcx : ∀ u, cont (x :: u) = none) :
    lazyLoop k cont (w ++ x :: t) = none := by
  induction w with
  | nil => simp [lazyLoop, hx]
  | cons y w ih =>
    have hy : k.test y = true := hk y (by simp)
    have hrec := ih (fun c hc => hk c (List.mem_cons_of_mem _ hc))
      (fun c hc => hcont c (List.mem_cons_of_mem _ hc))
    have hc : cont (w ++ x :: t) = none := by
      cases w with
      | nil => exact hcx t
      | cons z w => exact hcont z (by simp) _
    rw [List.cons_append, lazyLoop]
    simp [hy, hc, hrec]

theorem run_lazy_none {k : Cls} {cap : Bool} {ns : Regexp} {b : Bool} {inp : Str}
    (h : lazyLoop k (run ns false) inp = none) :
    run (.plus k false cap :: ns) b inp = none := by
  rw [run]
  simp [h]

/-- A keyword pattern `^w(\w+?)x` on a text `w n x ...` captures exactly `n`. -/
theorem find_keyword (w : String) (hw : w.toList ≠ []) (x : Char) (n text : Str)
    (hn : n ≠ []) (hn1 : ∀ c ∈ n, Cls.word.test c = true) (hx : Cls.word.test x = false) :
    FindStringSubmatch (.bot :: (lit w ++ [.plus .word false true, .chr x]))
        (w.toList ++ (n ++ x :: text))
      = [w.toList ++ (n ++ [x]), n] := by
  have hcont : ∀ c ∈ n, ∀ u, run [.chr x] false (c :: u) = none := by
    intro c hc u
    apply run_chr_ne
    intro hcx
    rw [hcx] at hc
    have := hn1 x hc
    rw [hx] at this
    exact Bool.noConfusion this
  have hr : run [.chr x] false (x :: text) = some ([x], []) := by simp [run]
  rw [FindStringSubmatch_bot, run_lit_append w hw, run_lazy_exact hn hn1 hcont hr]
  simp

/-- A match of an anchored pattern that starts with a literal: the text starts
with the literal. -/
theorem find_lit_prefix {w : String} (hw : w.toList ≠ []) {ns : Regexp} {s : Str}
    (h : FindStringSubmatch (.bot :: (lit w ++ ns)) s ≠ []) : ∃ t, s = w.toList ++ t := by
  rw [FindStringSubmatch_bot] at h
  cases hr : run (lit w ++ ns) true s with
  | none => simp [hr] at h
  | some r =>
    obtain ⟨t, _, h1, _, _⟩ := run_lit_some hw hr
    exact ⟨t, h1⟩

theorem Matches_prefix {re : Regexp} {b : Bool} {inp : Str} {r : Captures}
    (h : Matches re b inp r) : ∃ t, inp = r.1 ++ t := by
  induction re generalizing b inp r with
  | nil =>
    simp only [Matches] at h
    subst h
    exact ⟨inp, rfl⟩
  | cons a ns ih =>
    cases a with
    | bot => exact ih h.2
    | eot => exact ih h.2
    | chr c =>
      obtain ⟨t, r1, rfl, h1, rfl⟩ := h
      obtain ⟨u, hu⟩ := ih h1
      exact ⟨u, by simp [← hu]⟩
    | opt c =>
      rcases h with ⟨t, r1, rfl, h1, rfl⟩ | h1
      · obtain ⟨u, hu⟩ := ih h1
        exact ⟨u, by simp [← hu]⟩
      · exact ih h1
    | plus k g cap =>
      obtain ⟨w, t, r1, _, _, rfl, h1, rfl⟩ := h
      obtain ⟨u, hu⟩ := ih h1
      exact ⟨u, by simp [← hu]⟩

theorem Matches_groups {re : Regexp} {b : Bool} {inp : Str} {r : Captures}
    (h : Matches re b inp r) :
    List.Forall₂ (fun k g => g ≠ [] ∧ ∀ c ∈ g, Cls.test k c = true) (capClasses re) r.2 := by
  induction re generalizing b inp r with
  | nil =>
    simp only [Matches] at h
    subst h
    exact List.Forall₂.nil
  | cons a ns ih =>
    cases a with
    | bot => exact ih h.2
    | eot => exact ih h.2
    | chr c =>
      obtain ⟨t, r1, rfl, h1, rfl⟩ := h
      exact ih (r := r1) h1
    | opt c =>
      rcases h with ⟨t, r1, rfl, h1, rfl⟩ | h1
      · exact ih (r := r1) h1
      · exact ih h1
    | plus k g cap =>
      obtain ⟨w, t, r1, hw, hk, rfl, h1, rfl⟩ := h
      cases cap with
      | true => exact List.Forall₂.cons ⟨hw, hk⟩ (ih h1)
      | false => exact ih (r := r1) h1

/-- The results of an anchored pattern with one capture group: nothing, or the
matched prefix and a non-empty capture made of runes of the class of the group. -/
theorem FindStringSubmatch_one (ns : Regexp) (k : Cls) (hk : capClasses ns = [k]) (s : Str) :
    FindStringSubmatch (.bot :: ns) s = [] ∨
      ∃ m g t, FindStringSubmatch (.bot :: ns) s = [m, g] ∧ s = m ++ t ∧ g ≠ [] ∧
        ∀ c ∈ g, k.test c = true := by
  rw [FindStringSubmatch_bot]
  cases hr : run ns true s with
  | none => exact Or.inl rfl
  | some r =>
    right
    have hm := run_sound hr
    obtain ⟨t, ht⟩ := Matches_prefix hm
    have hg := Matches_groups hm
    rw [hk] at hg
    obtain ⟨m, gs⟩ := r
    cases hg with
    | cons h1 h2 =>
      cases h2
      exact ⟨m, _, t, rfl, ht, h1.1, h1.2⟩


/-! ## The pattern tables of `dbupdate.go` -/

theorem packageNameREs_eq :
    packageNameREs =
      [ .bot :: (lit "pkg " ++ [.plus .notParen false true, .chr ',']),
        .bot :: (lit "pkg " ++ (.plus .nonSpace false true ::
          (lit " (" ++ (.plus .dot false false :: lit "),")))) ] := rfl

theorem categoriesRegexMap_eq :
    categoriesRegexMap =
      [ ("const".toList, .bot :: (lit "const " ++ [.plus .word false true, .chr ' '])),
        ("var".toList, .bot :: (lit "var " ++ [.plus .word false true, .chr ' '])),
        ("type".toList, .bot :: (lit "type " ++ [.plus .word false true, .chr ' '])),
        ("func".toList, .bot :: (lit "func " ++ [.plus .word false true, .chr '('])),
        ("method".toList, .bot :: (lit "method (" ++ (.plus .dot true false ::
          (lit ") " ++ [.plus .word false true, .chr '('])))) ] := rfl

theorem receiverRE_eq :
    receiverRE
      = .bot :: (lit "method (" ++ (.opt '*' :: .plus .word false true :: lit ") ")) := rfl

theorem packageNameREs_oneCap :
    ∀ re ∈ packageNameREs, ∃ ns k, re = .bot :: ns ∧ capClasses ns = [k] := by
  intro re hre
  rw [packageNameREs_eq] at hre
  simp only [List.mem_cons, List.mem_singleton, List.not_mem_nil, or_false] at hre
  rcases hre with rfl | rfl
  · exact ⟨_, .notParen, rfl, rfl⟩
  · exact ⟨_, .nonSpace, rfl, rfl⟩

theorem categoriesRegexMap_oneCap :
    ∀ e ∈ categoriesRegexMap, ∃ ns, e.2 = .bot :: ns ∧ capClasses ns = [.word] := by
  intro e he
  rw [categoriesRegexMap_eq] at he
  simp only [List.mem_cons, List.mem_singleton, List.not_mem_nil, or_false] at he
  rcases he with rfl | rfl | rfl | rfl | rfl <;> exact ⟨_, rfl, rfl⟩

/-- A category pattern matches only texts that start with the first rune of its
keyword. -/
theorem category_head {e : Str × Regexp} (he : e ∈ categoriesRegexMap) {s : Str}
    (h : FindStringSubmatch e.2 s ≠ []) : s.head? = e.1.head? := by
  rw [categoriesRegexMap_eq] at he
  simp only [List.mem_cons, List.mem_singleton, List.not_mem_nil, or_false] at he
  rcases he with rfl | rfl | rfl | rfl | rfl
  all_goals
    obtain ⟨t, rfl⟩ := find_lit_prefix (by decide) h
    rfl

/-- The five category patterns are pairwise exclusive. -/
theorem category_unique {e₁ e₂ : Str × Regexp} (h₁ : e₁ ∈ categoriesRegexMap)
    (h₂ : e₂ ∈ categoriesRegexMap) {s : Str} (m₁ : FindStringSubmatch e₁.2 s ≠ [])
    (m₂ : FindStringSubmatch e₂.2 s ≠ []) : e₁ = e₂ := by
  have k₁ := category_head h₁ m₁
  have k₂ := category_head h₂ m₂
  rw [k₁] at k₂
  clear m₁ m₂ k₁
  rw [categoriesRegexMap_eq] at h₁ h₂
  simp only [List.mem_cons, List.mem_singleton, List.not_mem_nil, or_false] at h₁ h₂
  rcases h₁ with rfl | rfl | rfl | rfl | rfl <;>
    rcases h₂ with rfl | rfl | rfl | rfl | rfl <;>
      first
        | rfl
        | exact absurd k₂ (by decide)

/-! ## The two loops of `getAPIRecord` -/

theorem packageLoop_cases (s : Str) (res : List Regexp)
    (hres : ∀ re ∈ res, ∃ ns k, re = .bot :: ns ∧ capClasses ns = [k]) (record : APIRecord) :
    ((∀ re ∈ res, FindStringSubmatch re s = []) ∧
        packageLoop s res record [] = (record, [])) ∨
      ∃ pre re post m g t, res = pre ++ re :: post ∧
        (∀ e ∈ pre, FindStringSubmatch e s = []) ∧ FindStringSubmatch re s = [m, g] ∧
        s = m ++ t ∧ g ≠ [] ∧
        packageLoop s res record [] = ({ record with PackageName := g }, [m, g]) := by
  suffices H : ∀ ms0 : List Str, ms0 = [] →
      ((∀ re ∈ res, FindStringSubmatch re s = []) ∧
          packageLoop s res record ms0 = (record, [])) ∨
        ∃ pre re post m g t, res = pre ++ re :: post ∧
          (∀ e ∈ pre, FindStringSubmatch e s = []) ∧ FindStringSubmatch re s = [m, g] ∧
          s = m ++ t ∧ g ≠ [] ∧
          packageLoop s res record ms0 = ({ record with PackageName := g }, [m, g]) from
    H [] rfl
  induction res with
  | nil =>
    intro ms0 h0
    subst h0
    exact Or.inl ⟨by simp, rfl⟩
  | cons re res ih =>
    intro ms0 _
    obtain ⟨ns, k, rfl, hk⟩ := hres re (by simp)
    rcases FindStringSubmatch_one ns k hk s with h0 | ⟨m, g, t, h1, h2, h3, _⟩
    · rcases ih (fun r hr => hres r (List.mem_cons_of_mem _ hr)) [] rfl
        with ⟨ha, hb⟩ | ⟨pre, r, post, m, g, t, e1, e2, e3, e4, e5, e6⟩
      · left
        refine ⟨?_, ?_⟩
        · intro r hr
          rcases List.mem_cons.mp hr with rfl | hr
          · exact h0
          · exact ha r hr
        · rw [packageLoop]
          simpa [h0] using hb
      · right
        refine ⟨(.bot :: ns) :: pre, r, post, m, g, t, by simp [e1], ?_, e3, e4, e5, ?_⟩
        · intro e he
          rcases List.mem_cons.mp he with rfl | he
          · exact h0
          · exact e2 e he
        · rw [packageLoop]
          simpa [h0] using e6
    · right
      refine ⟨[], .bot :: ns, res, m, g, t, rfl, by simp, h1, h2, h3, ?_⟩
      rw [packageLoop]
      simp [h1]

theorem categoryLoop_none (s : Str) (record : APIRecord) (cats : List (Str × Regexp))
    (h : ∀ e ∈ cats, FindStringSubmatch e.2 s = []) :
    categoryLoop s record cats = (none, some ("could not match proper category ".toList ++ s)) := by
  induction cats with
  | nil => rfl
  | cons e cats ih =>
    obtain ⟨c, re⟩ := e
    rw [categoryLoop]
    have h0 : FindStringSubmatch re s = [] := h (c, re) (by simp)
    simp only [h0, List.length_nil]
    exact ih (fun e he => h e (List.mem_cons_of_mem _ he))

theorem categoryLoop_some (s : Str) (record : APIRecord) (cats : List (Str × Regexp))
    (e : Str × Regexp) (he : e ∈ cats) (m g : Str) (hm : FindStringSubmatch e.2 s = [m, g])
    (huniq : ∀ e1 ∈ cats, FindStringSubmatch e1.2 s ≠ [] → e1 = e) :
    categoryLoop s record cats = (some { record with Category := e.1, Name := g }, none) := by
  induction cats with
  | nil => simp at he
  | cons e1 cats ih =>
    obtain ⟨c, re⟩ := e1
    rw [categoryLoop]
    by_cases h1 : FindStringSubmatch re s = []
    · simp only [h1, List.length_nil]
      have hne : (c, re) ≠ e := by
        rintro rfl
        rw [h1] at hm
        simp at hm
      have he1 : e ∈ cats := by
        rcases List.mem_cons.mp he with h | h
        · exact absurd h.symm hne
        · exact h
      exact ih he1 (fun e2 h2 => huniq e2 (List.mem_cons_of_mem _ h2))
    · have := huniq (c, re) (by simp) h1
      subst this
      simp only at hm
      simp [hm]

/-- The outcome of the category loop does not depend on the iteration order. -/
theorem categoryLoop_perm (cats : List (Str × Regexp)) (h : cats.Perm categoriesRegexMap)
    (s : Str) (record : APIRecord) :
    categoryLoop s record cats = categoryLoop s record categoriesRegexMap := by
  by_cases hex : ∃ e ∈ categoriesRegexMap, FindStringSubmatch e.2 s ≠ []
  · obtain ⟨e, he, hne⟩ := hex
    obtain ⟨ns, h1, h2⟩ := categoriesRegexMap_oneCap e he
    have hcase := FindStringSubmatch_one ns .word h2 s
    rw [← h1] at hcase
    rcases hcase with h0 | ⟨m, g, t, hm, _, _, _⟩
    · exact absurd h0 hne
    · rw [categoryLoop_some s record cats e (h.mem_iff.mpr he) m g hm
          (fun e1 h3 h4 => category_unique (h.mem_iff.mp h3) he h4 hne),
        categoryLoop_some s record categoriesRegexMap e he m g hm
          (fun e1 h3 h4 => category_unique h3 he h4 hne)]
  · have hall : ∀ e ∈ categoriesRegexMap, FindStringSubmatch e.2 s = [] := by
      intro e he
      by_contra hne
      exact hex ⟨e, he, hne⟩
    rw [categoryLoop_none s record cats (fun e he => hall e (h.mem_iff.mp he)),
      categoryLoop_none s record categoriesRegexMap hall]

theorem getAPIRecord_perm (cats : List (Str × Regexp)) (h : cats.Perm categoriesRegexMap)
    (s : Str) : getAPIRecord cats s = getAPIRecord categoriesRegexMap s := by
  unfold getAPIRecord
  simp only [categoryLoop_perm cats h]


/-! ## The outcomes of `getAPIRecord` -/

/-- Every run of `getAPIRecord` ends in one of three ways: no package pattern
matches; the first matching package pattern is followed by a remainder that no
category pattern matches; or the one matching category pattern gives the record. -/
theorem getAPIRecord_cases (s : Str) :
    ((∀ re ∈ packageNameREs, FindStringSubmatch re s = []) ∧
        getAPIRecord categoriesRegexMap s
          = (none, some ("could not match package name ".toList ++ s))) ∨
      ∃ pre re post m g t, packageNameREs = pre ++ re :: post ∧
        (∀ e ∈ pre, FindStringSubmatch e s = []) ∧ FindStringSubmatch re s = [m, g] ∧
        s = m ++ t ∧ g ≠ [] ∧ TrimSpace (TrimPrefix s m) = TrimSpace t ∧
        (((∀ e ∈ categoriesRegexMap, FindStringSubmatch e.2 (TrimSpace t) = []) ∧
            getAPIRecord categoriesRegexMap s
              = (none, some ("could not match proper category ".toList ++ TrimSpace t))) ∨
          ∃ e ∈ categoriesRegexMap, ∃ m1 n t1,
            FindStringSubmatch e.2 (TrimSpace t) = [m1, n] ∧ TrimSpace t = m1 ++ t1 ∧
            n ≠ [] ∧ (∀ c ∈ n, Cls.word.test c = true) ∧
            getAPIRecord categoriesRegexMap s
              = (some { Name := n, Category := e.1, PackageName := g,
                        Description := TrimSpace t }, none)) := by
  rcases packageLoop_cases s packageNameREs packageNameREs_oneCap {} with
    ⟨ha, hb⟩ | ⟨pre, re, post, m, g, t, e1, e2, e3, e4, e5, e6⟩
  · left
    refine ⟨ha, ?_⟩
    unfold getAPIRecord
    simp [hb]
  · right
    have htp : TrimPrefix s m = t := by rw [e4]; exact TrimPrefix_append m t
    refine ⟨pre, re, post, m, g, t, e1, e2, e3, e4, e5, by rw [htp], ?_⟩
    have hlen : g.length ≠ 0 := by
      intro h0
      exact e5 (List.length_eq_zero.mp h0)
    have hget : getAPIRecord categoriesRegexMap s
        = categoryLoop (TrimSpace t) { PackageName := g, Description := TrimSpace t }
            categoriesRegexMap := by
      unfold getAPIRecord
      simp [e6, hlen, htp]
    rw [hget]
    by_cases hex : ∃ e ∈ categoriesRegexMap, FindStringSubmatch e.2 (TrimSpace t) ≠ []
    · right
      obtain ⟨e, he, hne⟩ := hex
      obtain ⟨ns, h1, h2⟩ := categoriesRegexMap_oneCap e he
      have hcase := FindStringSubmatch_one ns .word h2 (TrimSpace t)
      rw [← h1] at hcase
      rcases hcase with h0 | ⟨m1, n, t1, hm, ht1, hn, hw⟩
      · exact absurd h0 hne
      · refine ⟨e, he, m1, n, t1, hm, ht1, hn, hw, ?_⟩
        rw [categoryLoop_some (TrimSpace t) _ categoriesRegexMap e he m1 n hm
          (fun e1 h3 h4 => category_unique h3 he h4 hne)]
    · left
      have hall : ∀ e ∈ categoriesRegexMap, FindStringSubmatch e.2 (TrimSpace t) = [] := by
        intro e he
        by_contra hne
        exact hex ⟨e, he, hne⟩
      exact ⟨hall, categoryLoop_none _ _ _ hall⟩

theorem FindStringSubmatch_eq_nil_iff (re : Regexp) (s : Str) :
    FindStringSubmatch re s = [] ↔ ¬ MatchesIn re s := by
  rw [← FindStringSubmatch_ne_nil_iff]
  simp

theorem msgPackage_ne_msgCategory (s u : Str) :
    "could not match package name ".toList ++ s
      ≠ "could not match proper category ".toList ++ u := by
  intro h
  have h1 := congrArg (fun l => l.get? 17) h
  simp at h1


/-! ## The package patterns, read as shapes of the line -/

theorem Matches_chrs_iff (cs : Str) (hcs : cs ≠ []) (ns : Regexp) (b : Bool) (inp : Str)
    (r : Captures) :
    Matches (cs.map Atom.chr ++ ns) b inp r ↔
      ∃ t r1, inp = cs ++ t ∧ Matches ns false t r1 ∧ r = (cs ++ r1.1, r1.2) := by
  induction cs generalizing b inp r with
  | nil => exact absurd rfl hcs
  | cons c cs ih =>
    simp only [List.map_cons, List.cons_append, Matches]
    by_cases hc : cs = []
    · subst hc
      simp
    · constructor
      · rintro ⟨t, r1, rfl, h1, rfl⟩
        obtain ⟨t2, r2, rfl, h2, rfl⟩ := (ih hc false t r1).mp h1
        exact ⟨t2, r2, rfl, h2, rfl⟩
      · rintro ⟨t, r1, rfl, h1, rfl⟩
        exact ⟨cs ++ t, (cs ++ r1.1, r1.2), rfl, (ih hc false _ _).mpr ⟨t, r1, rfl, h1, rfl⟩, rfl⟩

theorem Matches_lit_iff (w : String) (hw : w.toList ≠ []) (ns : Regexp) (b : Bool) (inp : Str)
    (r : Captures) :
    Matches (lit w ++ ns) b inp r ↔
      ∃ t r1, inp = w.toList ++ t ∧ Matches ns false t r1 ∧ r = (w.toList ++ r1.1, r1.2) :=
  Matches_chrs_iff w.toList hw ns b inp r

theorem Matches_lit_end_iff (w : String) (hw : w.toList ≠ []) (b : Bool) (inp : Str)
    (r : Captures) :
    Matches (lit w) b inp r ↔ ∃ t, inp = w.toList ++ t ∧ r = (w.toList, []) := by
  have := Matches_lit_iff w hw [] b inp r
  rw [List.append_nil] at this
  rw [this]
  constructor
  · rintro ⟨t, r1, rfl, h1, rfl⟩
    simp only [Matches] at h1
    subst h1
    exact ⟨t, rfl, by simp⟩
  · rintro ⟨t, rfl, rfl⟩
    exact ⟨t, ([], []), rfl, by simp [Matches], by simp⟩

theorem MatchesIn_bot_iff (ns : Regexp) (s : Str) :
    MatchesIn (.bot :: ns) s ↔ ∃ r, Matches ns true s r := by
  unfold MatchesIn
  constructor
  · rintro ⟨pre, t, r, rfl, hb, hm⟩
    have hpre : pre = [] := by simpa using hb
    subst hpre
    exact ⟨r, by simpa using hm⟩
  · rintro ⟨r, hm⟩
    exact ⟨[], s, r, rfl, by simp, by simpa using hm⟩

/-- The lines the package patterns match: `pkg `, a non-empty path without
parentheses, a comma; or `pkg `, a non-empty path without the blanks
`[\t\n\f\r ]`, ` (`, a non-empty qualifier without line feed, `),`. -/
theorem packageNameREs_shapes (s : Str) :
    (∃ re ∈ packageNameREs, MatchesIn re s) ↔
      (∃ p t : Str, p ≠ [] ∧ (∀ c ∈ p, c ≠ '(' ∧ c ≠ ')') ∧
          s = "pkg ".toList ++ p ++ ",".toList ++ t) ∨
        (∃ p q t : Str, p ≠ [] ∧
          (∀ c ∈ p, c ≠ '\t' ∧ c ≠ '\n' ∧ c ≠ '\x0c' ∧ c ≠ '\r' ∧ c ≠ ' ') ∧
          q ≠ [] ∧ (∀ c ∈ q, c ≠ '\n') ∧
          s = "pkg ".toList ++ p ++ " (".toList ++ q ++ "),".toList ++ t) := by
  have hnp : ∀ c : Char, Cls.notParen.test c = true ↔ c ≠ '(' ∧ c ≠ ')' := by
    intro c
    simp [Cls.test]
  have hns : ∀ c : Char, Cls.nonSpace.test c = true ↔
      c ≠ '\t' ∧ c ≠ '\n' ∧ c ≠ '\x0c' ∧ c ≠ '\r' ∧ c ≠ ' ' := by
    intro c
    simp only [Cls.test, Bool.not_eq_true', Bool.or_eq_false_iff, beq_eq_false_iff_ne, ne_eq]
    tauto
  have hdot : ∀ c : Char, Cls.dot.test c = true ↔ c ≠ '\n' := by
    intro c
    simp [Cls.test]
  have h1 : MatchesIn (.bot :: (lit "pkg " ++ [.plus .notParen false true, .chr ','])) s ↔
      ∃ p t : Str, p ≠ [] ∧ (∀ c ∈ p, c ≠ '(' ∧ c ≠ ')') ∧
        s = "pkg ".toList ++ p ++ ",".toList ++ t := by
    rw [MatchesIn_bot_iff]
    constructor
    · rintro ⟨r, hm⟩
      obtain ⟨t, r1, rfl, hm1, -⟩ := (Matches_lit_iff "pkg " (by decide) _ _ _ _).mp hm
      obtain ⟨w, u, r2, hw, hk, rfl, hm2, -⟩ := hm1
      obtain ⟨v, r3, rfl, -, -⟩ := hm2
      exact ⟨w, v, hw, fun c hc => (hnp c).mp (hk c hc), by simp⟩
    · rintro ⟨p, t, hp, hk, rfl⟩
      have m1 : Matches [.plus .notParen false true, .chr ','] false (p ++ ',' :: t)
          (p ++ [','], [p]) :=
        ⟨p, ',' :: t, ([','], []), hp, fun c hc => (hnp c).mpr (hk c hc), rfl,
          ⟨t, ([], []), rfl, rfl, rfl⟩, rfl⟩
      exact ⟨("pkg ".toList ++ (p ++ [',']), [p]),
        (Matches_lit_iff "pkg " (by decide) _ _ _ _).mpr
          ⟨_, (p ++ [','], [p]), by simp, m1, rfl⟩⟩
  have h2 : MatchesIn (.bot :: (lit "pkg " ++ (.plus .nonSpace false true ::
        (lit " (" ++ (.plus .dot false false :: lit "),"))))) s ↔
      ∃ p q t : Str, p ≠ [] ∧
        (∀ c ∈ p, c ≠ '\t' ∧ c ≠ '\n' ∧ c ≠ '\x0c' ∧ c ≠ '\r' ∧ c ≠ ' ') ∧
        q ≠ [] ∧ (∀ c ∈ q, c ≠ '\n') ∧
        s = "pkg ".toList ++ p ++ " (".toList ++ q ++ "),".toList ++ t := by
    rw [MatchesIn_bot_iff]
    constructor
    · rintro ⟨r, hm⟩
      obtain ⟨t, r1, rfl, hm1, -⟩ := (Matches_lit_iff "pkg " (by decide) _ _ _ _).mp hm
      obtain ⟨w, u, r2, hw, hk, rfl, hm2, -⟩ := hm1
      obtain ⟨u1, r3, rfl, hm3, -⟩ := (Matches_lit_iff " (" (by decide) _ _ _ _).mp hm2
      obtain ⟨q, u2, r4, hq, hkq, rfl, hm4, -⟩ := hm3
      obtain ⟨v, rfl, -⟩ := (Matches_lit_end_iff ")," (by decide) _ _ _).mp hm4
      exact ⟨w, q, v, hw, fun c hc => (hns c).mp (hk c hc), hq,
        fun c hc => (hdot c).mp (hkq c hc), by simp⟩
    · rintro ⟨p, q, t, hp, hk, hq, hkq, rfl⟩
      have m4 : Matches (lit "),") false ("),".toList ++ t) ("),".toList, []) :=
        (Matches_lit_end_iff ")," (by decide) _ _ _).mpr ⟨t, rfl, rfl⟩
      have m3 : Matches (.plus .dot false false :: lit "),") false (q ++ ("),".toList ++ t))
          (q ++ "),".toList, []) :=
        ⟨q, "),".toList ++ t, ("),".toList, []), hq, fun c hc => (hdot c).mpr (hkq c hc), rfl,
          m4, rfl⟩
      have m2 : Matches (lit " (" ++ (.plus .dot false false :: lit "),")) false
          (" (".toList ++ (q ++ ("),".toList ++ t)))
          (" (".toList ++ (q ++ "),".toList), []) :=
        (Matches_lit_iff " (" (by decide) _ _ _ _).mpr ⟨_, (q ++ "),".toList, []), rfl, m3, rfl⟩
      have m1 : Matches (.plus .nonSpace false true ::
            (lit " (" ++ (.plus .dot false false :: lit "),"))) false
          (p ++ (" (".toList ++ (q ++ ("),".toList ++ t))))
          (p ++ (" (".toList ++ (q ++ "),".toList)), [p]) :=
        ⟨p, " (".toList ++ (q ++ ("),".toList ++ t)), (" (".toList ++ (q ++ "),".toList), []),
          hp, fun c hc => (hns c).mpr (hk c hc), rfl, m2, rfl⟩
      exact ⟨("pkg ".toList ++ (p ++ (" (".toList ++ (q ++ "),".toList))), [p]),
        (Matches_lit_iff "pkg " (by decide) _ _ _ _).mpr
          ⟨_, (p ++ (" (".toList ++ (q ++ "),".toList)), [p]), by simp, m1, rfl⟩⟩
  rw [packageNameREs_eq]
  simp only [List.mem_cons, List.mem_singleton, List.not_mem_nil, or_false, exists_eq_or_imp,
    exists_eq_left, h1, h2]


theorem word_test_iff (c : Char) : Cls.word.test c = true ↔ IsWordRune c := by
  unfold Cls.test IsWordRune
  simp only [Bool.or_eq_true, Bool.and_eq_true, decide_eq_true_eq, beq_iff_eq]
  tauto

/-- In a list the first element with a property is unique. -/
theorem first_split_unique {α : Type} (P : α → Prop) :
    ∀ (pre₁ pre₂ : List α) (a₁ a₂ : α) (post₁ post₂ : List α),
      pre₁ ++ a₁ :: post₁ = pre₂ ++ a₂ :: post₂ → (∀ x ∈ pre₁, ¬ P x) → (∀ x ∈ pre₂, ¬ P x) →
      P a₁ → P a₂ → a₁ = a₂ := by
  intro pre₁
  induction pre₁ with
  | nil =>
    intro pre₂ a₁ a₂ post₁ post₂ h _ h₂ p₁ _
    cases pre₂ with
    | nil =>
      simp only [List.nil_append, List.cons.injEq] at h
      exact h.1
    | cons y ys =>
      simp only [List.nil_append, List.cons_append, List.cons.injEq] at h
      exact absurd (h.1 ▸ p₁) (h₂ y (by simp))
  | cons x xs ih =>
    intro pre₂ a₁ a₂ post₁ post₂ h h₁ h₂ p₁ p₂
    cases pre₂ with
    | nil =>
      simp only [List.nil_append, List.cons_append, List.cons.injEq] at h
      exact absurd (h.1 ▸ p₂) (h₁ x (by simp))
    | cons y ys =>
      simp only [List.cons_append, List.cons.injEq] at h
      exact ih ys a₁ a₂ post₁ post₂ h.2 (fun z hz => h₁ z (List.mem_cons_of_mem _ hz))
        (fun z hz => h₂ z (List.mem_cons_of_mem _ hz)) p₁ p₂

theorem category_keys {e : Str × Regexp} (he : e ∈ categoriesRegexMap) :
    e.1 ∈ ["const".toList, "func".toList, "method".toList, "type".toList, "var".toList] ∧
      isValidCategory e.1 = none := by
  rw [categoriesRegexMap_eq] at he
  simp only [List.mem_cons, List.mem_singleton, List.not_mem_nil, or_false] at he
  rcases he with rfl | rfl | rfl | rfl | rfl <;> exact ⟨by decide, by decide⟩

theorem greedyLoop_all {k : Cls} {cont : Str → Option Captures} {w : Str} {r : Captures}
    (hw : w ≠ []) (hk : ∀ c ∈ w, k.test c = true) (hr : cont [] = some r) :
    greedyLoop k cont w = some (w, r) := by
  induction w with
  | nil => exact absurd rfl hw
  | cons x w ih =>
    have hx : k.test x = true := hk x (by simp)
    rw [greedyLoop]
    by_cases hw1 : w = []
    · subst hw1
      simp [hx, greedyLoop, hr]
    · rw [ih hw1 (fun c hc => hk c (List.mem_cons_of_mem _ hc))]
      simp [hx]

/-- The validator `isValidName` accepts exactly the non-empty words of `\w` runes. -/
theorem isValidName_eq_none_iff (name : Str) :
    isValidName name = none ↔ name ≠ [] ∧ ∀ c ∈ name, Cls.word.test c = true := by
  unfold isValidName
  rw [FindString_bot]
  constructor
  · intro h
    cases hr : run [.plus .word true false, .eot] true name with
    | none => simp [hr] at h
    | some r =>
      obtain ⟨w, t, r1, h1, h2, h3, h4, _⟩ := run_sound hr
      obtain ⟨h5, _⟩ := h4
      subst h5
      simp only [List.append_nil] at h3
      subst h3
      exact ⟨h1, h2⟩
  · rintro ⟨h1, h2⟩
    have hg : greedyLoop .word (run [.eot] false) name = some (name, ([], [])) :=
      greedyLoop_all h1 h2 (by simp [run])
    have : run [.plus .word true false, .eot] true name = some (name, []) := by
      rw [run]
      simp [hg]
    rw [this]
    simp [h1]


theorem MatchesIn_keyword_iff (w : String) (hw : w.toList ≠ []) (x : Char) (s : Str) :
    MatchesIn (.bot :: (lit w ++ [.plus .word false true, .chr x])) s ↔
      ∃ n t : Str, n ≠ [] ∧ (∀ c ∈ n, IsWordRune c) ∧ s = w.toList ++ n ++ [x] ++ t := by
  rw [MatchesIn_bot_iff]
  constructor
  · rintro ⟨r, hm⟩
    obtain ⟨t, r1, rfl, hm1, -⟩ := (Matches_lit_iff w hw _ _ _ _).mp hm
    obtain ⟨n, u, r2, hn, hk, rfl, hm2, -⟩ := hm1
    obtain ⟨v, r3, rfl, -, -⟩ := hm2
    exact ⟨n, v, hn, fun c hc => (word_test_iff c).mp (hk c hc), by simp⟩
  · rintro ⟨n, t, hn, hk, rfl⟩
    have m1 : Matches [.plus .word false true, .chr x] false (n ++ x :: t) (n ++ [x], [n]) :=
      ⟨n, x :: t, ([x], []), hn, fun c hc => (word_test_iff c).mpr (hk c hc), rfl,
        ⟨t, ([], []), rfl, rfl, rfl⟩, rfl⟩
    exact ⟨(w.toList ++ (n ++ [x]), [n]),
      (Matches_lit_iff w hw _ _ _ _).mpr ⟨_, (n ++ [x], [n]), by simp, m1, rfl⟩⟩

/-- The texts the category patterns match: a keyword `const`, `var` or `type`, a
blank, a non-empty identifier and a blank; `func `, an identifier and `(`; or
`method (`, a non-empty receiver text without line feed, `) `, an identifier
and `(`. -/
theorem categoriesRegexMap_shapes (s : Str) :
    (∃ e ∈ categoriesRegexMap, MatchesIn e.2 s) ↔
      (∃ n t : Str, n ≠ [] ∧ (∀ c ∈ n, IsWordRune c) ∧
        (s = "const ".toList ++ n ++ [' '] ++ t ∨ s = "var ".toList ++ n ++ [' '] ++ t ∨
          s = "type ".toList ++ n ++ [' '] ++ t ∨ s = "func ".toList ++ n ++ ['('] ++ t)) ∨
        (∃ R n t : Str, R ≠ [] ∧ (∀ c ∈ R, c ≠ '\n') ∧ n ≠ [] ∧ (∀ c ∈ n, IsWordRune c) ∧
          s = "method (".toList ++ R ++ ") ".toList ++ n ++ ['('] ++ t) := by
  have hdot : ∀ c : Char, Cls.dot.test c = true ↔ c ≠ '\n' := by
    intro c
    simp [Cls.test]
  have hmethod : MatchesIn (.bot :: (lit "method (" ++ (.plus .dot true false ::
        (lit ") " ++ [.plus .word false true, .chr '('])))) s ↔
      ∃ R n t : Str, R ≠ [] ∧ (∀ c ∈ R, c ≠ '\n') ∧ n ≠ [] ∧ (∀ c ∈ n, IsWordRune c) ∧
        s = "method (".toList ++ R ++ ") ".toList ++ n ++ ['('] ++ t := by
    rw [MatchesIn_bot_iff]
    constructor
    · rintro ⟨r, hm⟩
      obtain ⟨t, r1, rfl, hm1, -⟩ := (Matches_lit_iff "method (" (by decide) _ _ _ _).mp hm
      obtain ⟨R, u, r2, hR, hk, rfl, hm2, -⟩ := hm1
      obtain ⟨u1, r3, rfl, hm3, -⟩ := (Matches_lit_iff ") " (by decide) _ _ _ _).mp hm2
      obtain ⟨n, u2, r4, hn, hkn, rfl, hm4, -⟩ := hm3
      obtain ⟨v, r5, rfl, -, -⟩ := hm4
      exact ⟨R, n, v, hR, fun c hc => (hdot c).mp (hk c hc), hn,
        fun c hc => (word_test_iff c).mp (hkn c hc), by simp⟩
    · rintro ⟨R, n, t, hR, hk, hn, hkn, rfl⟩
      have m3 : Matches [.plus .word false true, .chr '('] false (n ++ '(' :: t)
          (n ++ ['('], [n]) :=
        ⟨n, '(' :: t, (['('], []), hn, fun c hc => (word_test_iff c).mpr (hkn c hc), rfl,
          ⟨t, ([], []), rfl, rfl, rfl⟩, rfl⟩
      have m2 : Matches (lit ") " ++ [.plus .word false true, .chr '(']) false
          (") ".toList ++ (n ++ '(' :: t)) (") ".toList ++ (n ++ ['(']), [n]) :=
        (Matches_lit_iff ") " (by decide) _ _ _ _).mpr ⟨_, (n ++ ['('], [n]), rfl, m3, rfl⟩
      have m1 : Matches (.plus .dot true false ::
            (lit ") " ++ [.plus .word false true, .chr '('])) false
          (R ++ (") ".toList ++ (n ++ '(' :: t)))
          (R ++ (") ".toList ++ (n ++ ['('])), [n]) :=
        ⟨R, ") ".toList ++ (n ++ '(' :: t), (") ".toList ++ (n ++ ['(']), [n]), hR,
          fun c hc => (hdot c).mpr (hk c hc), rfl, m2, rfl⟩
      exact ⟨("method (".toList ++ (R ++ (") ".toList ++ (n ++ ['(']))), [n]),
        (Matches_lit_iff "method (" (by decide) _ _ _ _).mpr
          ⟨_, (R ++ (") ".toList ++ (n ++ ['('])), [n]), by simp, m1, rfl⟩⟩
  rw [categoriesRegexMap_eq]
  simp only [List.mem_cons, List.mem_singleton, List.not_mem_nil, or_false, exists_eq_or_imp,
    exists_eq_left, MatchesIn_keyword_iff "const " (by decide),
    MatchesIn_keyword_iff "var " (by decide), MatchesIn_keyword_iff "type " (by decide),
    MatchesIn_keyword_iff "func " (by decide), hmethod]
  constructor
  · rintro (⟨n, t, h1, h2, h3⟩ | ⟨n, t, h1, h2, h3⟩ | ⟨n, t, h1, h2, h3⟩ | ⟨n, t, h1, h2, h3⟩ | h)
    · exact Or.inl ⟨n, t, h1, h2, Or.inl h3⟩
    · exact Or.inl ⟨n, t, h1, h2, Or.inr (Or.inl h3)⟩
    · exact Or.inl ⟨n, t, h1, h2, Or.inr (Or.inr (Or.inl h3))⟩
    · exact Or.inl ⟨n, t, h1, h2, Or.inr (Or.inr (Or.inr h3))⟩
    · exact Or.inr h
  · rintro (⟨n, t, h1, h2, h3 | h3 | h3 | h3⟩ | h)
    · exact Or.inl ⟨n, t, h1, h2, h3⟩
    · exact Or.inr (Or.inl ⟨n, t, h1, h2, h3⟩)
    · exact Or.inr (Or.inr (Or.inl ⟨n, t, h1, h2, h3⟩))
    · exact Or.inr (Or.inr (Or.inr (Or.inl ⟨n, t, h1, h2, h3⟩)))
    · exact Or.inr (Or.inr (Or.inr (Or.inr h)))


/-! ## Lines of the designed shapes -/

theorem nonSpace_of_not_isSpace {c : Char} (h : isSpace c = false) :
    Cls.nonSpace.test c = true := by
  unfold isSpace at h
  unfold Cls.test
  simp only [Bool.or_eq_false_iff] at h
  simp only [Bool.not_eq_true', Bool.or_eq_false_iff]
  tauto

theorem packageLoop_plain (p t : Str) (hp : p ≠ [])
    (hp1 : ∀ c ∈ p, c ≠ ',' ∧ c ≠ '(' ∧ c ≠ ')') :
    packageLoop ("pkg ".toList ++ (p ++ ',' :: t)) packageNameREs {} []
      = ({ PackageName := p }, ["pkg ".toList ++ (p ++ [',']), p]) := by
  have hk : ∀ c ∈ p, Cls.notParen.test c = true := by
    intro c hc
    obtain ⟨_, h2, h3⟩ := hp1 c hc
    simp [Cls.test, h2, h3]
  have hcont : ∀ c ∈ p, ∀ u, run [.chr ','] false (c :: u) = none :=
    fun c hc u => run_chr_ne _ _ _ (hp1 c hc).1
  have hr : run [.chr ','] false (',' :: t) = some ([','], []) := by simp [run]
  have hfind : FindStringSubmatch (.bot :: (lit "pkg " ++ [.plus .notParen false true, .chr ',']))
      ("pkg ".toList ++ (p ++ ',' :: t)) = ["pkg ".toList ++ (p ++ [',']), p] := by
    rw [FindStringSubmatch_bot, run_lit_append "pkg " (by decide),
      run_lazy_exact hp hk hcont hr]
    simp
  rw [packageNameREs_eq, packageLoop]
  simp only [hfind]
  rfl

theorem packageLoop_qualified (p q t : Str) (hp : p ≠ [])
    (hp1 : ∀ c ∈ p, isSpace c = false ∧ c ≠ ',' ∧ c ≠ '(' ∧ c ≠ ')') (hq : q ≠ [])
    (hq1 : ∀ c ∈ q, c ≠ '(' ∧ c ≠ ')' ∧ c ≠ '\n') :
    packageLoop ("pkg ".toList ++ (p ++ (" (".toList ++ (q ++ ("),".toList ++ t)))))
        packageNameREs {} []
      = ({ PackageName := p },
          ["pkg ".toList ++ (p ++ (" (".toList ++ (q ++ "),".toList))), p]) := by
  -- the first pattern runs over `p` and the blank, then stops at the parenthesis
  have hfirst : FindStringSubmatch
      (.bot :: (lit "pkg " ++ [.plus .notParen false true, .chr ',']))
      ("pkg ".toList ++ (p ++ (" (".toList ++ (q ++ ("),".toList ++ t))))) = [] := by
    have hstop : lazyLoop .notParen (run [.chr ','] false)
        ((p ++ [' ']) ++ '(' :: (q ++ ("),".toList ++ t))) = none := by
      apply lazyLoop_stop
      · intro c hc
        rcases List.mem_append.mp hc with h | h
        · obtain ⟨_, _, h2, h3⟩ := hp1 c h
          simp [Cls.test, h2, h3]
        · simp only [List.mem_singleton] at h
          subst h
          decide
      · intro c hc u
        apply run_chr_ne
        rcases List.mem_append.mp hc with h | h
        · exact (hp1 c h).2.1
        · simp only [List.mem_singleton] at h
          subst h
          decide
      · decide
      · intro u
        exact run_chr_ne _ _ _ (by decide)
    have hinp : p ++ (" (".toList ++ (q ++ ("),".toList ++ t)))
        = (p ++ [' ']) ++ '(' :: (q ++ ("),".toList ++ t)) := by
      simp
    rw [FindStringSubmatch_bot, run_lit_append "pkg " (by decide), hinp,
      run_lazy_none hstop]
    rfl
  -- the second pattern captures `p` and skips the qualifier
  have hk : ∀ c ∈ p, Cls.nonSpace.test c = true :=
    fun c hc => nonSpace_of_not_isSpace (hp1 c hc).1
  have hkq : ∀ c ∈ q, Cls.dot.test c = true := by
    intro c hc
    simp [Cls.test, (hq1 c hc).2.2]
  have hcq : ∀ c ∈ q, ∀ u, run (lit "),") false (c :: u) = none := by
    intro c hc u
    have := run_lit_ne ")," (c := ')') rfl (hq1 c hc).2.1 [] false u
    simpa using this
  have hrq : run (lit "),") false ("),".toList ++ t) = some ("),".toList, []) :=
    run_lit_end ")," (by decide) false t
  have hcp : ∀ c ∈ p, ∀ u,
      run (lit " (" ++ (.plus .dot false false :: lit "),")) false (c :: u) = none := by
    intro c hc u
    apply run_lit_ne " (" (c := ' ') rfl
    intro h
    have := (hp1 c hc).1
    rw [h] at this
    exact absurd this (by decide)
  have hrp : run (lit " (" ++ (.plus .dot false false :: lit "),")) false
      (" (".toList ++ (q ++ ("),".toList ++ t)))
      = some (" (".toList ++ (q ++ "),".toList), []) := by
    rw [run_lit_append " (" (by decide), run_lazy_exact hq hkq hcq hrq]
    simp
  have hsecond : FindStringSubmatch
      (.bot :: (lit "pkg " ++ (.plus .nonSpace false true ::
          (lit " (" ++ (.plus .dot false false :: lit "),")))))
      ("pkg ".toList ++ (p ++ (" (".toList ++ (q ++ ("),".toList ++ t)))))
      = ["pkg ".toList ++ (p ++ (" (".toList ++ (q ++ "),".toList))), p] := by
    rw [FindStringSubmatch_bot, run_lit_append "pkg " (by decide),
      run_lazy_exact hp hk hcp hrp]
    simp
  rw [packageNameREs_eq, packageLoop]
  simp only [hfirst]
  rw [if_neg (by decide), packageLoop]
  simp only [hsecond]
  rfl

/-- A description of one of the four keyword shapes is matched by the pattern of
its keyword, which captures the identifier. -/
theorem category_match (kw n text d : Str) (hn : n ≠ []) (hn1 : ∀ c ∈ n, IsWordRune c)
    (hd : (kw ∈ ["const".toList, "var".toList, "type".toList] ∧
            d = kw ++ " ".toList ++ n ++ " ".toList ++ text) ∨
          (kw = "func".toList ∧ d = kw ++ " ".toList ++ n ++ "(".toList ++ text)) :
    ∃ e ∈ categoriesRegexMap, ∃ m, e.1 = kw ∧ FindStringSubmatch e.2 d = [m, n] := by
  have hw : ∀ c ∈ n, Cls.word.test c = true := fun c hc => (word_test_iff c).mpr (hn1 c hc)
  rcases hd with ⟨hkw, rfl⟩ | ⟨rfl, rfl⟩
  · simp only [List.mem_cons, List.mem_singleton, List.not_mem_nil, or_false] at hkw
    rcases hkw with rfl | rfl | rfl
    · refine ⟨("const".toList, .bot :: (lit "const " ++ [.plus .word false true, .chr ' '])),
        by rw [categoriesRegexMap_eq]; simp, "const ".toList ++ (n ++ [' ']), rfl, ?_⟩
      have := find_keyword "const " (by decide) ' ' n text hn hw (by decide)
      simpa using this
    · refine ⟨("var".toList, .bot :: (lit "var " ++ [.plus .word false true, .chr ' '])),
        by rw [categoriesRegexMap_eq]; simp, "var ".toList ++ (n ++ [' ']), rfl, ?_⟩
      have := find_keyword "var " (by decide) ' ' n text hn hw (by decide)
      simpa using this
    · refine ⟨("type".toList, .bot :: (lit "type " ++ [.plus .word false true, .chr ' '])),
        by rw [categoriesRegexMap_eq]; simp, "type ".toList ++ (n ++ [' ']), rfl, ?_⟩
      have := find_keyword "type " (by decide) ' ' n text hn hw (by decide)
      simpa using this
  · refine ⟨("func".toList, .bot :: (lit "func " ++ [.plus .word false true, .chr '('])),
      by rw [categoriesRegexMap_eq]; simp, "func ".toList ++ (n ++ ['(']), rfl, ?_⟩
    have := find_keyword "func " (by decide) '(' n text hn hw (by decide)
    simpa using this

theorem TrimSpace_blank_cons {d : Str} (hd : Trimmed d) : TrimSpace (' ' :: d) = d := by
  have : TrimSpace (' ' :: d) = TrimSpace d := by
    unfold TrimSpace
    rw [List.dropWhile_cons_of_pos (by decide)]
  rw [this, TrimSpace_of_Trimmed hd]

/-- The record of a line whose package prefix and category are known. -/
theorem getAPIRecord_of (cats : List (Str × Regexp)) (hperm : cats.Perm categoriesRegexMap)
    (s m g t d : Str) (hloop : packageLoop s packageNameREs {} [] = ({ PackageName := g }, [m, g]))
    (hg : g ≠ []) (hs : s = m ++ t) (ht : TrimSpace t = d) (e : Str × Regexp)
    (he : e ∈ categoriesRegexMap) (m1 n : Str) (hfind : FindStringSubmatch e.2 d = [m1, n]) :
    getAPIRecord cats s
      = (some { Name := n, Category := e.1, PackageName := g, Description := d }, none) := by
  have htp : TrimPrefix s m = t := by rw [hs]; exact TrimPrefix_append m t
  have hlen : g.length ≠ 0 := fun h0 => hg (List.length_eq_zero.mp h0)
  rw [getAPIRecord_perm cats hperm]
  unfold getAPIRecord
  simp only [hloop, hlen, if_false, List.getD_cons_zero, htp, ht]
  rw [categoryLoop_some d _ categoriesRegexMap e he m1 n hfind
    (fun e1 h3 h4 => category_unique h3 he h4 (by rw [hfind]; simp))]


/-! ## Method lines -/

theorem greedyLoop_none_of_suffixes {k : Cls} {cont : Str → Option Captures} {l : Str}
    (h : ∀ u v, l = u ++ v → u ≠ [] → cont v = none) : greedyLoop k cont l = none := by
  induction l with
  | nil => rfl
  | cons x l ih =>
    have h1 : greedyLoop k cont l = none :=
      ih (fun u v huv hu => h (x :: u) v (by rw [huv]; rfl) (by simp))
    have h2 : cont l = none := h [x] l rfl (by simp)
    rw [greedyLoop]
    simp [h1, h2]

/-- A greedy repetition gives back runes only as far as needed: when the
continuation fails at every later place, the loop consumes exactly `w`. -/
theorem greedyLoop_exact {k : Cls} {cont : Str → Option Captures} {w t : Str} {r : Captures}
    (hw : w ≠ []) (hk : ∀ c ∈ w, k.test c = true)
    (hlater : ∀ u v, t = u ++ v → u ≠ [] → cont v = none) (hr : cont t = some r) :
    greedyLoop k cont (w ++ t) = some (w, r) := by
  induction w with
  | nil => exact absurd rfl hw
  | cons x w ih =>
    have hx : k.test x = true := hk x (by simp)
    rw [List.cons_append, greedyLoop]
    by_cases hw1 : w = []
    · subst hw1
      simp [hx, greedyLoop_none_of_suffixes hlater, hr]
    · rw [ih hw1 (fun c hc => hk c (List.mem_cons_of_mem _ hc))]
      simp [hx]

/-- The method pattern on a description `method (R) n(rest`: when no `) word(`
occurs in `rest`, it captures `n`. -/
theorem find_method (R n rest : Str) (hR : R ≠ []) (hR1 : ∀ c ∈ R, c ≠ '\n') (hn : n ≠ [])
    (hn1 : ∀ c ∈ n, IsWordRune c)
    (hrest : ∀ a w b : Str, w ≠ [] → (∀ c ∈ w, IsWordRune c) →
      rest ≠ a ++ ") ".toList ++ w ++ "(".toList ++ b) :
    ∃ m, FindStringSubmatch
        (.bot :: (lit "method (" ++ (.plus .dot true false ::
          (lit ") " ++ [.plus .word false true, .chr '(']))))
        ("method (".toList ++ R ++ ") ".toList ++ n ++ "(".toList ++ rest) = [m, n] := by
  have hw : ∀ c ∈ n, Cls.word.test c = true := fun c hc => (word_test_iff c).mpr (hn1 c hc)
  have hk : ∀ c ∈ R, Cls.dot.test c = true := by
    intro c hc
    simp [Cls.test, hR1 c hc]
  have hcn : ∀ c ∈ n, ∀ u, run [.chr '('] false (c :: u) = none := by
    intro c hc u
    apply run_chr_ne
    intro h
    have := hw c hc
    rw [h] at this
    exact absurd this (by decide)
  have hcont : run (lit ") " ++ [.plus .word false true, .chr '(']) false
      (") ".toList ++ (n ++ '(' :: rest)) = some (") ".toList ++ (n ++ ['(']), [n]) := by
    rw [run_lit_append ") " (by decide),
      run_lazy_exact hn hw hcn (by simp [run] : run [.chr '('] false ('(' :: rest) = some (['('], []))]
    simp
  have hlater : ∀ u v, ") ".toList ++ (n ++ '(' :: rest) = u ++ v → u ≠ [] →
      run (lit ") " ++ [.plus .word false true, .chr '(']) false v = none := by
    intro u v huv hu
    by_contra hne
    obtain ⟨r, hr⟩ := Option.ne_none_iff_exists'.mp hne
    obtain ⟨v1, r1, rfl, h1, -⟩ := run_lit_some (by decide) hr
    obtain ⟨w, v2, r2, hw1, hw2, rfl, h2, -⟩ := run_plus_some h1
    obtain ⟨b, r3, rfl, -, -⟩ := run_chr_some h2
    -- the match starts with `)`, so it lies inside `rest`
    have hsplit : (") ".toList ++ (n ++ ['('])) ++ rest
        = u ++ (") ".toList ++ (w ++ '(' :: b)) := by
      rw [← huv]
      simp
    rcases List.append_eq_append_iff.mp hsplit with ⟨a, ha, hb⟩ | ⟨c, hc, hd⟩
    · exact hrest a w b hw1 (fun x hx => (word_test_iff x).mp (hw2 x hx)) (by rw [hb]; simp)
    · cases c with
      | nil =>
        simp only [List.append_nil] at hc
        simp only [List.nil_append] at hd
        exact hrest [] w b hw1 (fun x hx => (word_test_iff x).mp (hw2 x hx))
          (by rw [← hd]; simp)
      | cons y c =>
        have hy : y = ')' := by
          have := congrArg List.head? hd
          simpa using this.symm
        subst hy
        obtain ⟨z, u1, rfl⟩ := List.exists_cons_of_ne_nil hu
        have hmem : ')' ∈ ' ' :: (n ++ ['(']) := by
          have h3 : ") ".toList ++ (n ++ ['(']) = ')' :: ' ' :: (n ++ ['(']) := rfl
          rw [h3, List.cons_append, List.cons.injEq] at hc
          rw [hc.2]
          simp
        simp only [List.mem_cons, List.mem_append, List.mem_singleton, List.not_mem_nil,
          or_false] at hmem
        rcases hmem with h | h | h
        · exact absurd h (by decide)
        · have := hw ')' h
          exact absurd this (by decide)
        · exact absurd h (by decide)
  have hinp : "method (".toList ++ R ++ ") ".toList ++ n ++ "(".toList ++ rest
      = "method (".toList ++ (R ++ (") ".toList ++ (n ++ '(' :: rest))) := by simp
  have hg := greedyLoop_exact hR hk hlater hcont
  rw [hinp, FindStringSubmatch_bot, run_lit_append "method (" (by decide), run]
  simp only [if_true, hg]
  exact ⟨_, rfl⟩

/-- The record of a method line `pkg p, method (R) n(rest` whose `rest` holds no
`) word(`: the name is `n`, the identifier that follows the receiver. -/
theorem getAPIRecord_method (cats : List (Str × Regexp)) (hperm : cats.Perm categoriesRegexMap)
    (p R n rest : Str) (hp : p ≠ []) (hp1 : ∀ c ∈ p, c ≠ ',' ∧ c ≠ '(' ∧ c ≠ ')')
    (hR : R ≠ []) (hR1 : ∀ c ∈ R, c ≠ '\n') (hn : n ≠ []) (hn1 : ∀ c ∈ n, IsWordRune c)
    (hrest : ∀ a w b : Str, w ≠ [] → (∀ c ∈ w, IsWordRune c) →
      rest ≠ a ++ ") ".toList ++ w ++ "(".toList ++ b)
    (hd : Trimmed ("method (".toList ++ R ++ ") ".toList ++ n ++ "(".toList ++ rest)) :
    getAPIRecord cats
        ("pkg ".toList ++ p ++ ", ".toList ++
          ("method (".toList ++ R ++ ") ".toList ++ n ++ "(".toList ++ rest))
      = (some { Name := n, Category := "method".toList, Version := [], PackageName := p,
                Description := "method (".toList ++ R ++ ") ".toList ++ n ++ "(".toList ++ rest,
                GolangURL := [] }, none) := by
  obtain ⟨m, hm⟩ := find_method R n rest hR hR1 hn hn1 hrest
  have hs : "pkg ".toList ++ p ++ ", ".toList ++
        ("method (".toList ++ R ++ ") ".toList ++ n ++ "(".toList ++ rest)
      = "pkg ".toList ++ (p ++ ',' :: (' ' ::
          ("method (".toList ++ R ++ ") ".toList ++ n ++ "(".toList ++ rest))) := by simp
  rw [hs]
  exact getAPIRecord_of cats hperm _ _ p _ _ (packageLoop_plain p _ hp hp1) hp (by simp)
    (TrimSpace_blank_cons hd)
    ("method".toList, .bot :: (lit "method (" ++ (.plus .dot true false ::
      (lit ") " ++ [.plus .word false true, .chr '(']))))
    (by rw [categoriesRegexMap_eq]; simp) m n hm


/-! ## The receiver pattern of `constructGolangURL` -/

theorem run_opt_ne {c x : Char} (hx : x ≠ c) (ns : Regexp) (b : Bool) (t : Str) :
    run (.opt c :: ns) b (x :: t) = run ns b (x :: t) := by
  rw [run]
  simp [hx]

theorem run_opt_eq {c : Char} {ns : Regexp} {t : Str} {r : Captures} (b : Bool)
    (h : run ns false t = some r) : run (.opt c :: ns) b (c :: t) = some (c :: r.1, r.2) := by
  rw [run]
  simp [h]

/-- The receiver pattern on a description `method (R) ...` or `method (*R) ...`:
it captures `R`. -/
theorem find_receiver (star R rest : Str) (hstar : star = [] ∨ star = ['*']) (hR : R ≠ [])
    (hR1 : ∀ c ∈ R, IsWordRune c) :
    ∃ m, FindStringSubmatch receiverRE
      ("method (".toList ++ star ++ R ++ ") ".toList ++ rest) = [m, R] := by
  have hw : ∀ c ∈ R, Cls.word.test c = true := fun c hc => (word_test_iff c).mpr (hR1 c hc)
  have hcont : ∀ c ∈ R, ∀ u, run (lit ") ") false (c :: u) = none := by
    intro c hc u
    have hne : c ≠ ')' := by
      intro h
      have := hw c hc
      rw [h] at this
      exact absurd this (by decide)
    have := run_lit_ne ") " (c := ')') rfl hne [] false u
    simpa using this
  have hr : run (lit ") ") false (") ".toList ++ rest) = some (") ".toList, []) :=
    run_lit_end ") " (by decide) false rest
  have hplus : run (.plus .word false true :: lit ") ") false (R ++ (") ".toList ++ rest))
      = some (R ++ ") ".toList, [R]) := by
    rw [run_lazy_exact hR hw hcont hr]
    simp
  rw [receiverRE_eq, FindStringSubmatch_bot]
  rcases hstar with rfl | rfl
  · obtain ⟨y, R1, rfl⟩ := List.exists_cons_of_ne_nil hR
    have hy : y ≠ '*' := by
      intro h
      have := hw y (by simp)
      rw [h] at this
      exact absurd this (by decide)
    have hinp : "method (".toList ++ [] ++ (y :: R1) ++ ") ".toList ++ rest
        = "method (".toList ++ (y :: (R1 ++ (") ".toList ++ rest))) := by simp
    have hplus1 : run (.plus .word false true :: lit ") ") false
        (y :: (R1 ++ (") ".toList ++ rest))) = some ((y :: R1) ++ ") ".toList, [y :: R1]) := by
      simpa using hplus
    rw [hinp, run_lit_append "method (" (by decide), run_opt_ne hy, hplus1]
    exact ⟨_, rfl⟩
  · have hinp : "method (".toList ++ ['*'] ++ R ++ ") ".toList ++ rest
        = "method (".toList ++ ('*' :: (R ++ (") ".toList ++ rest))) := by simp
    rw [hinp, run_lit_append "method (" (by decide), run_opt_eq false hplus]
    exact ⟨_, rfl⟩

/-- A match of the receiver pattern shows the shape of the description. -/
theorem receiver_shape {description : Str}
    (h : FindStringSubmatch receiverRE description ≠ []) :
    ∃ star R rest, (star = [] ∨ star = ['*']) ∧ R ≠ [] ∧ (∀ c ∈ R, IsWordRune c) ∧
      description = "method (".toList ++ star ++ R ++ ") ".toList ++ rest := by
  rw [receiverRE_eq, FindStringSubmatch_bot] at h
  cases hr : run (lit "method (" ++ (.opt '*' :: .plus .word false true :: lit ") ")) true
      description with
  | none => simp [hr] at h
  | some r =>
    obtain ⟨t, r1, rfl, h1, _⟩ := run_lit_some (by decide) hr
    have hplus : ∀ {u : Str} {r2 : Captures},
        Matches (.plus .word false true :: lit ") ") false u r2 →
        ∃ R rest, R ≠ [] ∧ (∀ c ∈ R, IsWordRune c) ∧ u = R ++ ") ".toList ++ rest := by
      intro u r2 hm
      obtain ⟨w, v, r3, hw, hk, rfl, hm1, _⟩ := hm
      have hm2 : Matches [.chr ')', .chr ' '] false v r3 := hm1
      obtain ⟨v1, r4, rfl, hm3, _⟩ := hm2
      obtain ⟨v2, r5, rfl, _, _⟩ := hm3
      exact ⟨w, v2, hw, fun c hc => (word_test_iff c).mp (hk c hc), by simp⟩
    rcases run_sound h1 with ⟨t1, r2, rfl, hm, _⟩ | hm
    · obtain ⟨R, rest, hR, hR1, rfl⟩ := hplus hm
      exact ⟨['*'], R, rest, Or.inr rfl, hR, hR1, by simp⟩
    · obtain ⟨R, rest, hR, hR1, rfl⟩ := hplus hm
      exact ⟨[], R, rest, Or.inl rfl, hR, hR1, by simp⟩


/-! ## The producer loop -/

theorem HasPrefix_hash (s : Str) : HasPrefix s "#".toList = true ↔ s.head? = some '#' := by
  unfold HasPrefix
  cases s with
  | nil => decide
  | cons x t =>
    change (['#'] : Str).isPrefixOf (x :: t) = true ↔ _
    rw [List.isPrefixOf_iff_prefix]
    simp only [List.head?_cons, Option.some.injEq]
    constructor
    · rintro ⟨u, hu⟩
      simp only [List.cons_append, List.nil_append, List.cons.injEq] at hu
      exact hu.1.symm
    · rintro rfl
      exact ⟨t, rfl⟩

theorem getAPIRecord_nil_error (cats : List (Str × Regexp))
    (hperm : cats.Perm categoriesRegexMap) (s : Str) (h : (getAPIRecord cats s).2 = none) :
    ∃ r, getAPIRecord cats s = (some r, none) := by
  rw [getAPIRecord_perm cats hperm] at h ⊢
  rcases getAPIRecord_cases s with ⟨_, hb⟩ |
    ⟨pre, re, post, m, g, t, e1, e2, e3, e4, e5, e6, ⟨_, hd⟩ | ⟨e, he, m1, n, t1, k1, k2, k3, k4, k5⟩⟩
  · rw [hb] at h
    simp at h
  · rw [hd] at h
    simp at h
  · exact ⟨_, k5⟩

theorem TrimSpace_dropCR (s : Str) : TrimSpace (dropCR s) = TrimSpace s := by
  unfold dropCR
  split
  · rename_i h
    have hne : s ≠ [] := by
      intro h0
      rw [h0] at h
      simp at h
    have hlast : s.getLast hne = '\r' := by
      rw [List.getLast?_eq_getLast s hne] at h
      simpa using h
    have hs : s = s.dropLast ++ ['\r'] := by
      rw [← hlast]
      exact (List.dropLast_append_getLast hne).symm
    generalize s.dropLast = t at hs
    subst hs
    unfold TrimSpace
    rw [List.dropWhile_append]
    split
    · rename_i hall
      have h1 : List.dropWhile isSpace t = [] := List.isEmpty_iff.mp hall
      rw [h1]
      rfl
    · rw [List.rdropWhile_concat_pos _ _ _ (by decide)]
  · rfl

theorem MaxScanTokenSize_eq : MaxScanTokenSize = 65536 := rfl

theorem scanLoop_eq (cats : List (Str × Regexp)) (hperm : cats.Perm categoriesRegexMap)
    (version : Str) (lines : List Str) (recordChan : List APIRecord) :
    scanLoop cats version lines recordChan
      = some (recordChan ++
          (lines.takeWhile (fun l => decide (utf8Len l < 65536))).filterMap
            (pushedRecord cats version)) := by
  induction lines generalizing recordChan with
  | nil => simp [scanLoop]
  | cons text more ih =>
    rw [scanLoop, scannerScan, MaxScanTokenSize_eq]
    by_cases hlong : 65536 ≤ utf8Len text
    · have hp : decide (utf8Len text < 65536) = false := decide_eq_false (by omega)
      rw [if_pos hlong, List.takeWhile_cons, hp]
      simp
    · have hp : decide (utf8Len text < 65536) = true := decide_eq_true (by omega)
      rw [if_neg hlong, List.takeWhile_cons, hp]
      simp only [if_true, TrimSpace_dropCR, List.filterMap_cons]
      by_cases hskip : TrimSpace text = [] ∨ (TrimSpace text).head? = some '#'
      · have hq : pushedRecord cats version text = none := by
          unfold pushedRecord
          rw [if_pos hskip]
        have hc : ((TrimSpace text).length = 0 || HasPrefix (TrimSpace text) "#".toList)
            = true := by
          rcases hskip with h | h
          · rw [h]
            rfl
          · rw [(HasPrefix_hash _).mpr h, Bool.or_true]
        simp only [hc, if_true, hq]
        exact ih recordChan
      · have hc : ((TrimSpace text).length = 0 || HasPrefix (TrimSpace text) "#".toList)
            = false := by
          simp only [not_or] at hskip
          have h1 : ¬ (TrimSpace text).length = 0 :=
            fun h => hskip.1 (List.length_eq_zero.mp h)
          have h2 : HasPrefix (TrimSpace text) "#".toList = false :=
            Bool.eq_false_iff.mpr (fun h => hskip.2 ((HasPrefix_hash _).mp h))
          rw [h2, Bool.or_false]
          exact decide_eq_false h1
        simp only [hc, Bool.false_eq_true, if_false]
        cases herr : (getAPIRecord cats (TrimSpace text)).2 with
        | some err =>
          have hq : pushedRecord cats version text = none := by
            unfold pushedRecord
            rw [if_neg hskip, if_neg (by rw [herr]; simp)]
          rcases hres : getAPIRecord cats (TrimSpace text) with ⟨r0, e0⟩
          simp only [hres] at herr
          subst herr
          simp only [hq]
          exact ih recordChan
        | none =>
          obtain ⟨r, hr⟩ := getAPIRecord_nil_error cats hperm _ herr
          have hq : pushedRecord cats version text
              = some { r with
                  Version := version
                  GolangURL := constructGolangURL r.Category r.Name r.PackageName
                    r.Description } := by
            unfold pushedRecord
            rw [if_neg hskip, if_pos herr, hr]
            rfl
          simp only [hr, hq]
          rw [ih]
          simp

theorem utf8Len_replicate_x (n : Nat) : utf8Len (List.replicate n 'x') = n := by
  unfold utf8Len
  induction n with
  | zero => rfl
  | succ n ih =>
    rw [List.replicate_succ, List.map_cons, List.sum_cons, ih]
    have : Char.utf8Size 'x' = 1 := by decide
    omega

/-! ## The reply of the store -/

/-- The answers of `insertRecordToDB`: nil for one inserted row and for every
`gosqlite3.Error` of primary code 19, whatever its extended code (2067 for a
uniqueness violation, 275 for a CHECK, 1299 for a NOT NULL violation); the
error itself for every other error of `ExecContext` and for an error of
`RowsAffected`. -/
theorem insertRecordToDB_cases (reply : ExecReply) :
    (reply.execErr = none → reply.rowsErr = none → reply.rows = 1 →
        insertRecordToDB reply = none) ∧
      (∀ ext, reply.execErr = some (.sqlite 19 ext) → insertRecordToDB reply = none) ∧
      (∀ e, reply.execErr = some e → (∀ ext, e ≠ .sqlite 19 ext) →
        insertRecordToDB reply = some e) ∧
      (∀ e, reply.execErr = none → reply.rowsErr = some e → insertRecordToDB reply = some e) := by
  obtain ⟨execErr, rows, rowsErr⟩ := reply
  refine ⟨?_, ?_, ?_, ?_⟩
  · rintro rfl rfl rfl
    rfl
  · rintro ext rfl
    rfl
  · rintro e rfl he
    cases e with
    | sqlite code ext =>
      have hc : code ≠ 19 := by
        rintro rfl
        exact he ext rfl
      simp [insertRecordToDB, hc]
    | other msg => rfl
  · rintro e rfl rfl
    simp [insertRecordToDB]

/-! ## The claims -/

/-- C3: `getAPIRecord` fails in exactly two ways, each time with a nil record.
The lines a package pattern matches are those that start with `pkg `, a
non-empty path without parentheses and a comma, or with `pkg `, a non-empty
path without blanks, ` (`, a non-empty qualifier and `),`. The error starts
with `could not match package name ` if and only if no package pattern
matches the line; it starts with `could not match proper category ` if and
only if the first package pattern that matches (in slice order, matched text
`m`) leaves a trimmed remainder that no category pattern matches; an error
comes with a nil record, a nil error with a non-nil record, and no other error
occurs. -/
theorem getAPIRecord_fails_exactly (cats : List (Str × Regexp))
    (hperm : cats.Perm categoriesRegexMap) (s : Str) :
    ((∃ re ∈ packageNameREs, MatchesIn re s) ↔
      (∃ p t : Str, p ≠ [] ∧ (∀ c ∈ p, c ≠ '(' ∧ c ≠ ')') ∧
          s = "pkg ".toList ++ p ++ ",".toList ++ t) ∨
        (∃ p q t : Str, p ≠ [] ∧
          (∀ c ∈ p, c ≠ '\t' ∧ c ≠ '\n' ∧ c ≠ '\x0c' ∧ c ≠ '\r' ∧ c ≠ ' ') ∧
          q ≠ [] ∧ (∀ c ∈ q, c ≠ '\n') ∧
          s = "pkg ".toList ++ p ++ " (".toList ++ q ++ "),".toList ++ t)) ∧
    ((∃ u, (getAPIRecord cats s).2 = some ("could not match package name ".toList ++ u)) ↔
        ∀ re ∈ packageNameREs, ¬ MatchesIn re s) ∧
    ((∃ u, (getAPIRecord cats s).2 = some ("could not match proper category ".toList ++ u)) ↔
        ∃ pre re post m g, packageNameREs = pre ++ re :: post ∧
          (∀ e ∈ pre, ¬ MatchesIn e s) ∧ FindStringSubmatch re s = [m, g] ∧
          ∀ e ∈ categoriesRegexMap, ¬ MatchesIn e.2 (TrimSpace (TrimPrefix s m))) ∧
    ((getAPIRecord cats s).2 ≠ none → (getAPIRecord cats s).1 = none) ∧
    ((getAPIRecord cats s).2 = none → (getAPIRecord cats s).1 ≠ none) ∧
    ((getAPIRecord cats s).2 = none ∨
      (getAPIRecord cats s).2 = some ("could not match package name ".toList ++ s) ∨
      ∃ m, (getAPIRecord cats s).2
        = some ("could not match proper category ".toList ++ TrimSpace (TrimPrefix s m))) := by
  refine ⟨packageNameREs_shapes s, ?_⟩
  rw [getAPIRecord_perm cats hperm]
  have hfirst : ∀ {pre₁ pre₂ : List Regexp} {a₁ a₂ : Regexp} {post₁ post₂ : List Regexp}
      {m₁ g₁ m₂ g₂ : Str}, packageNameREs = pre₁ ++ a₁ :: post₁ →
      packageNameREs = pre₂ ++ a₂ :: post₂ →
      (∀ e ∈ pre₁, FindStringSubmatch e s = []) → (∀ e ∈ pre₂, ¬ MatchesIn e s) →
      FindStringSubmatch a₁ s = [m₁, g₁] → FindStringSubmatch a₂ s = [m₂, g₂] → m₁ = m₂ := by
    intro pre₁ pre₂ a₁ a₂ post₁ post₂ m₁ g₁ m₂ g₂ h₁ h₂ f₁ f₂ k₁ k₂
    have := first_split_unique (fun re => FindStringSubmatch re s ≠ []) pre₁ pre₂ a₁ a₂
      post₁ post₂ (h₁.symm.trans h₂) (fun x hx => by simp [f₁ x hx])
      (fun x hx => by
        have := (FindStringSubmatch_eq_nil_iff x s).mpr (f₂ x hx)
        simp [this])
      (by simp [k₁]) (by simp [k₂])
    subst this
    rw [k₁] at k₂
    simpa using (List.cons.inj k₂).1
  rcases getAPIRecord_cases s with ⟨ha, hb⟩ |
    ⟨pre, re, post, m, g, t, e1, e2, e3, e4, e5, e6, ⟨hc, hd⟩ | ⟨e, he, m1, n, t1, k1, k2, k3, k4, k5⟩⟩
  · rw [hb]
    refine ⟨⟨fun _ re hre => (FindStringSubmatch_eq_nil_iff re s).mp (ha re hre),
      fun _ => ⟨s, rfl⟩⟩, ⟨?_, ?_⟩, fun _ => rfl, fun h => by simp at h, Or.inr (Or.inl rfl)⟩
    · rintro ⟨u, hu⟩
      simp only [Option.some.injEq] at hu
      exact absurd hu (msgPackage_ne_msgCategory s u)
    · rintro ⟨pre, re, post, m, g, h1, _, h3, _⟩
      have hmem : re ∈ packageNameREs := by rw [h1]; simp
      rw [ha re hmem] at h3
      simp at h3
  · rw [hd]
    have hre : re ∈ packageNameREs := by rw [e1]; simp
    refine ⟨⟨?_, ?_⟩, ⟨fun _ => ?_, fun _ => ⟨_, rfl⟩⟩, fun _ => rfl, fun h => by simp at h,
      Or.inr (Or.inr ⟨m, by rw [e6]⟩)⟩
    · rintro ⟨u, hu⟩
      simp only [Option.some.injEq] at hu
      exact absurd hu.symm (msgPackage_ne_msgCategory u _)
    · intro hall
      have := (FindStringSubmatch_eq_nil_iff re s).mpr (hall re hre)
      rw [this] at e3
      simp at e3
    · refine ⟨pre, re, post, m, g, e1,
        fun x hx => (FindStringSubmatch_eq_nil_iff x s).mp (e2 x hx), e3, ?_⟩
      intro x hx
      rw [e6]
      exact (FindStringSubmatch_eq_nil_iff x.2 _).mp (hc x hx)
  · rw [k5]
    have hre : re ∈ packageNameREs := by rw [e1]; simp
    refine ⟨⟨fun h => by simp at h, ?_⟩, ⟨fun h => by simp at h, ?_⟩, fun h => by simp at h,
      fun _ => by simp, Or.inl rfl⟩
    · intro hall
      have := (FindStringSubmatch_eq_nil_iff re s).mpr (hall re hre)
      rw [this] at e3
      simp at e3
    · rintro ⟨pre₂, re₂, post₂, m₂, g₂, h1, h2, h3, h4⟩
      have hm : m = m₂ := hfirst e1 h1 e2 h2 e3 h3
      subst hm
      rw [e6] at h4
      have := (FindStringSubmatch_eq_nil_iff e.2 _).mpr (h4 e he)
      rw [this] at k1
      simp at k1

/-- A run of `getAPIRecord_fails_exactly` on the line `pkg1 archive/tar, method
(*Header) FileInfo() os.FileInfo` of the test file. -/
theorem getAPIRecord_fails_exactly_witness :
    ((∃ u, (getAPIRecord categoriesRegexMap
          "pkg1 archive/tar, method (*Header) FileInfo() os.FileInfo".toList).2
        = some ("could not match package name ".toList ++ u)) ↔
      ∀ re ∈ packageNameREs,
        ¬ MatchesIn re "pkg1 archive/tar, method (*Header) FileInfo() os.FileInfo".toList) ∧
    (getAPIRecord categoriesRegexMap
        "pkg1 archive/tar, method (*Header) FileInfo() os.FileInfo".toList).2 ≠ none :=
  ⟨(getAPIRecord_fails_exactly categoriesRegexMap (List.Perm.refl _)
      "pkg1 archive/tar, method (*Header) FileInfo() os.FileInfo".toList).2.1, by decide⟩

/-- C6: every record `getAPIRecord` returns is well formed: its category is one
of the five keywords, its name a non-empty word of letters, digits and
underscores, its package non-empty, its description free of outer white space
and a tail of the trimmed input; `isValidCategory` and `isValidName` accept it. -/
theorem getAPIRecord_wellformed (cats : List (Str × Regexp))
    (hperm : cats.Perm categoriesRegexMap) (s : Str) (r : APIRecord)
    (h : (getAPIRecord cats s).1 = some r) :
    r.Category ∈ ["const".toList, "func".toList, "method".toList, "type".toList,
        "var".toList] ∧
      r.Name ≠ [] ∧ (∀ c ∈ r.Name, IsWordRune c) ∧ r.PackageName ≠ [] ∧
      Trimmed r.Description ∧ r.Description <:+ TrimSpace s ∧
      isValidCategory r.Category = none ∧ isValidName r.Name = none := by
  rw [getAPIRecord_perm cats hperm] at h
  rcases getAPIRecord_cases s with ⟨_, hb⟩ |
    ⟨pre, re, post, m, g, t, e1, e2, e3, e4, e5, e6, ⟨_, hd⟩ | ⟨e, he, m1, n, t1, k1, k2, k3, k4, k5⟩⟩
  · rw [hb] at h
    simp at h
  · rw [hd] at h
    simp at h
  · rw [k5] at h
    simp only [Option.some.injEq] at h
    subst h
    refine ⟨(category_keys he).1, k3, fun c hc => (word_test_iff c).mp (k4 c hc), e5,
      Trimmed_TrimSpace t, ?_, (category_keys he).2, (isValidName_eq_none_iff n).mpr ⟨k3, k4⟩⟩
    rw [e4]
    exact TrimSpace_suffix m t

/-- A run of `getAPIRecord_wellformed` on a line of the test file. -/
theorem getAPIRecord_wellformed_witness :
    (getAPIRecord categoriesRegexMap "pkg unicode, var Chakma *RangeTable".toList).1
        = some { Name := "Chakma".toList, Category := "var".toList,
                 PackageName := "unicode".toList,
                 Description := "var Chakma *RangeTable".toList } ∧
      isValidName "Chakma".toList = none :=
  ⟨by decide,
    (getAPIRecord_wellformed categoriesRegexMap (List.Perm.refl _)
      "pkg unicode, var Chakma *RangeTable".toList
      { Name := "Chakma".toList, Category := "var".toList, PackageName := "unicode".toList,
        Description := "var Chakma *RangeTable".toList } (by decide)).2.2.2.2.2.2.2⟩

/-- C7: `isValidName` returns nil exactly for the non-empty names made of ASCII
letters, ASCII digits and underscores, and a non-nil error for every other
string. -/
theorem isValidName_nil_iff (name : Str) :
    (isValidName name = none ↔ name ≠ [] ∧ ∀ c ∈ name, IsWordRune c) ∧
      (¬ (name ≠ [] ∧ ∀ c ∈ name, IsWordRune c) → isValidName name ≠ none) := by
  have key : isValidName name = none ↔ name ≠ [] ∧ ∀ c ∈ name, IsWordRune c := by
    rw [isValidName_eq_none_iff]
    constructor
    · rintro ⟨h1, h2⟩
      exact ⟨h1, fun c hc => (word_test_iff c).mp (h2 c hc)⟩
    · rintro ⟨h1, h2⟩
      exact ⟨h1, fun c hc => (word_test_iff c).mpr (h2 c hc)⟩
  exact ⟨key, fun hn h => hn (key.mp h)⟩

/-- C10: the five category patterns are pairwise exclusive, so the result of
`getAPIRecord` is the same for every iteration order of `categoriesRegexMap`. -/
theorem categories_exclusive_order_free :
    (∀ (s : Str) (e₁ e₂ : Str × Regexp), e₁ ∈ categoriesRegexMap → e₂ ∈ categoriesRegexMap →
        MatchesIn e₁.2 s → MatchesIn e₂.2 s → e₁ = e₂) ∧
      (∀ o₁ o₂ : List (Str × Regexp), o₁.Perm categoriesRegexMap → o₂.Perm categoriesRegexMap →
        ∀ s, getAPIRecord o₁ s = getAPIRecord o₂ s) := by
  refine ⟨?_, ?_⟩
  · intro s e₁ e₂ h₁ h₂ m₁ m₂
    exact category_unique h₁ h₂ ((FindStringSubmatch_ne_nil_iff _ _).mpr m₁)
      ((FindStringSubmatch_ne_nil_iff _ _).mpr m₂)
  · intro o₁ o₂ h₁ h₂ s
    rw [getAPIRecord_perm o₁ h₁, getAPIRecord_perm o₂ h₂]


/-- C1: for a package path `p`, an identifier `n` and a trimmed remainder `d` of
one of the shapes `const n ...`, `var n ...`, `type n ...`, `func n(...`, the
lines `pkg p, d` and `pkg p (q), d` both give a nil error and the record with
name `n`, the keyword as category, package `p`, description `d` and empty
version and URL, for every iteration order of the category map; the qualifier
`q` does not reach the record. -/
theorem getAPIRecord_parses (cats : List (Str × Regexp)) (hperm : cats.Perm categoriesRegexMap)
    (p n d q text kw : Str) (hp : p ≠ [])
    (hp1 : ∀ c ∈ p, isSpace c = false ∧ c ≠ ',' ∧ c ≠ '(' ∧ c ≠ ')')
    (hn : n ≠ []) (hn1 : ∀ c ∈ n, IsWordRune c)
    (hd : (kw ∈ ["const".toList, "var".toList, "type".toList] ∧
            d = kw ++ " ".toList ++ n ++ " ".toList ++ text) ∨
          (kw = "func".toList ∧ d = kw ++ " ".toList ++ n ++ "(".toList ++ text))
    (hd1 : Trimmed d) (hq : q ≠ []) (hq1 : ∀ c ∈ q, c ≠ '(' ∧ c ≠ ')' ∧ c ≠ '\n') :
    getAPIRecord cats ("pkg ".toList ++ p ++ ", ".toList ++ d)
        = (some { Name := n, Category := kw, Version := [], PackageName := p,
                  Description := d, GolangURL := [] }, none) ∧
      getAPIRecord cats ("pkg ".toList ++ p ++ " (".toList ++ q ++ "), ".toList ++ d)
        = (some { Name := n, Category := kw, Version := [], PackageName := p,
                  Description := d, GolangURL := [] }, none) := by
  obtain ⟨e, he, m1, hkw, hfind⟩ := category_match kw n text d hn hn1 hd
  subst hkw
  constructor
  · have hs : "pkg ".toList ++ p ++ ", ".toList ++ d
        = "pkg ".toList ++ (p ++ ',' :: (' ' :: d)) := by simp
    rw [hs]
    exact getAPIRecord_of cats hperm _ _ p (' ' :: d) d
      (packageLoop_plain p (' ' :: d) hp (fun c hc => (hp1 c hc).2)) hp (by simp)
      (TrimSpace_blank_cons hd1) e he m1 n hfind
  · have hs : "pkg ".toList ++ p ++ " (".toList ++ q ++ "), ".toList ++ d
        = "pkg ".toList ++ (p ++ (" (".toList ++ (q ++ ("),".toList ++ (' ' :: d))))) := by
      simp
    rw [hs]
    exact getAPIRecord_of cats hperm _ _ p (' ' :: d) d
      (packageLoop_qualified p q (' ' :: d) hp hp1 hq hq1) hp (by simp)
      (TrimSpace_blank_cons hd1) e he m1 n hfind

/-- A use of `getAPIRecord_parses` on a line of the test file: the package
`log/syslog`, the qualifier `darwin-386` and the constant `LOG_ALERT`. -/
theorem getAPIRecord_parses_witness :
    getAPIRecord categoriesRegexMap "pkg log/syslog (darwin-386), const LOG_ALERT = 1".toList
      = (some { Name := "LOG_ALERT".toList, Category := "const".toList, Version := [],
                PackageName := "log/syslog".toList,
                Description := "const LOG_ALERT = 1".toList, GolangURL := [] }, none) :=
  (getAPIRecord_parses categoriesRegexMap (List.Perm.refl _) "log/syslog".toList
    "LOG_ALERT".toList "const LOG_ALERT = 1".toList "darwin-386".toList "= 1".toList
    "const".toList (by decide) (by decide) (by decide)
    (by unfold IsWordRune; decide) (Or.inl ⟨by decide, by decide⟩)
    ⟨by decide, by decide⟩ (by decide) (by decide)).2

/-- C2, at the failing input: for the method line `pkg p, method (T) Get()
func()` the pattern `^method \(.+\) (\w+?)\(` runs its greedy `.+` up to the last
`) word(` of the line, and `getAPIRecord` names the record `func`, the word
before the last parenthesis, in place of `Get`, the identifier that follows the
receiver; this for every iteration order of the category map. -/
theorem getAPIRecord_method_greedy (cats : List (Str × Regexp))
    (hperm : cats.Perm categoriesRegexMap) :
    getAPIRecord cats "pkg p, method (T) Get() func()".toList
      = (some { Name := "func".toList, Category := "method".toList, Version := [],
                PackageName := "p".toList,
                Description := "method (T) Get() func()".toList, GolangURL := [] },
          none) := by
  rw [getAPIRecord_perm cats hperm]
  decide

/-- The run of `getAPIRecord_method_greedy` in the order of the map literal: the
name of the record is not `Get`. -/
theorem getAPIRecord_method_greedy_witness :
    (getAPIRecord categoriesRegexMap "pkg p, method (T) Get() func()".toList).1.map
        (fun r => r.Name) = some "func".toList ∧
      "func".toList ≠ "Get".toList :=
  ⟨by rw [getAPIRecord_method_greedy categoriesRegexMap (List.Perm.refl _)]; rfl, by decide⟩

/-- C4: `constructGolangURL` is a total function with these values. For the
category `method` and a description `method (`, an optional `*`, a non-empty
receiver `R` of letters, digits and underscores, `) `, it is
`https://golang.org/pkg/` + pkgName + `/#` + R + `.` + name; in every other
case it is `https://golang.org/pkg/` + pkgName + `/#` + name. -/
theorem constructGolangURL_spec (category name pkgName description : Str) :
    (∀ star R rest : Str, category = "method".toList → (star = [] ∨ star = ['*']) → R ≠ [] →
        (∀ c ∈ R, IsWordRune c) →
        description = "method (".toList ++ star ++ R ++ ") ".toList ++ rest →
        constructGolangURL category name pkgName description
          = "https://golang.org/pkg/".toList ++ pkgName ++ "/#".toList ++ R ++ ".".toList
              ++ name) ∧
      ((category ≠ "method".toList ∨
          ¬ ∃ star R rest : Str, (star = [] ∨ star = ['*']) ∧ R ≠ [] ∧
            (∀ c ∈ R, IsWordRune c) ∧
            description = "method (".toList ++ star ++ R ++ ") ".toList ++ rest) →
        constructGolangURL category name pkgName description
          = "https://golang.org/pkg/".toList ++ pkgName ++ "/#".toList ++ name) := by
  constructor
  · intro star R rest hcat hstar hR hR1 hdesc
    obtain ⟨m, hm⟩ := find_receiver star R rest hstar hR hR1
    unfold constructGolangURL
    rw [if_pos hcat, hdesc]
    simp only [hm]
    rfl
  · intro h
    unfold constructGolangURL
    by_cases hcat : category = "method".toList
    · rw [if_pos hcat]
      have hshape : ¬ ∃ star R rest : Str, (star = [] ∨ star = ['*']) ∧ R ≠ [] ∧
          (∀ c ∈ R, IsWordRune c) ∧
          description = "method (".toList ++ star ++ R ++ ") ".toList ++ rest := by
        rcases h with h | h
        · exact absurd hcat h
        · exact h
      have hnil : FindStringSubmatch receiverRE description = [] := by
        by_contra hne
        exact hshape (receiver_shape hne)
      simp only [hnil]
      rfl
    · rw [if_neg hcat]

/-- C5, as amended: `produceAPIRecord`, as a function of the URL and of the
lines of the body, returns (no nil dereference) and appends to the channel, in
line order, what `pushedRecord` gives for each line that comes before the first
line of 65536 bytes or more, where the scanner stops: nothing for a line that
is blank, a comment or rejected by `getAPIRecord`, else the record of
`getAPIRecord` for the trimmed line with the version of the URL and the URL of
`constructGolangURL`. When no line is that long, every line is read. The
version of `.../api/go1.1.txt` is `1.1`, and the records pushed for two
versions differ in the version only. -/
theorem produceAPIRecord_pushes (cats : List (Str × Regexp))
    (hperm : cats.Perm categoriesRegexMap) (apiURL : Str) (lines : List Str)
    (recordChan : List APIRecord) :
    produceAPIRecord cats apiURL (some lines) recordChan
        = some (recordChan ++
            (lines.takeWhile (fun l => decide (utf8Len l < 65536))).filterMap
              (pushedRecord cats
                (TrimSuffix (TrimPrefix (filepathBase apiURL) "go".toList) ".txt".toList))) ∧
      ((∀ l ∈ lines, utf8Len l < 65536) →
        produceAPIRecord cats apiURL (some lines) recordChan
          = some (recordChan ++ lines.filterMap (pushedRecord cats
              (TrimSuffix (TrimPrefix (filepathBase apiURL) "go".toList) ".txt".toList)))) ∧
      (∀ version text r, pushedRecord cats version text = some r →
        ∃ r0, getAPIRecord cats (TrimSpace text) = (some r0, none) ∧
          r = { r0 with
                Version := version
                GolangURL := constructGolangURL r0.Category r0.Name r0.PackageName
                  r0.Description } ∧
          r.GolangURL = constructGolangURL r.Category r.Name r.PackageName r.Description) ∧
      TrimSuffix (TrimPrefix (filepathBase
          "https://raw.githubusercontent.com/golang/go/master/api/go1.1.txt".toList)
          "go".toList) ".txt".toList = "1.1".toList ∧
      (∀ v₁ v₂ text,
        (pushedRecord cats v₁ text).map (fun r => { r with Version := [] })
          = (pushedRecord cats v₂ text).map (fun r => { r with Version := [] })) := by
  have hmain : produceAPIRecord cats apiURL (some lines) recordChan
      = some (recordChan ++
          (lines.takeWhile (fun l => decide (utf8Len l < 65536))).filterMap
            (pushedRecord cats
              (TrimSuffix (TrimPrefix (filepathBase apiURL) "go".toList) ".txt".toList))) := by
    unfold produceAPIRecord
    exact scanLoop_eq cats hperm _ lines recordChan
  refine ⟨hmain, ?_, ?_, by decide, ?_⟩
  · intro hshort
    rw [hmain, List.takeWhile_eq_self_iff.mpr (fun l hl => decide_eq_true (hshort l hl))]
  · intro version text r h
    unfold pushedRecord at h
    split at h
    · simp at h
    · split at h
      · rename_i herr
        obtain ⟨r0, hr0⟩ := getAPIRecord_nil_error cats hperm _ herr
        rw [hr0] at h
        simp only [Option.map_some', Option.some.injEq] at h
        subst h
        exact ⟨r0, hr0, rfl, rfl⟩
      · simp at h
  · intro v₁ v₂ text
    unfold pushedRecord
    split
    · rfl
    · split
      · cases (getAPIRecord cats (TrimSpace text)).1 <;> rfl
      · rfl

/-- A run of `produceAPIRecord_pushes`: a comment, a blank line, a constant, a
line that does not parse and a variable, read from `go1.1.txt`. -/
theorem produceAPIRecord_pushes_witness :
    produceAPIRecord categoriesRegexMap
        "https://raw.githubusercontent.com/golang/go/master/api/go1.1.txt".toList
        (some ["# comment".toList, "  ".toList, " pkg crypto, const SHA512_224 Hash \r".toList,
          "pkg1 crypto, const X Hash".toList, "pkg unicode, var Chakma *RangeTable".toList])
        []
      = some
        [ { Name := "SHA512_224".toList, Category := "const".toList, Version := "1.1".toList,
            PackageName := "crypto".toList, Description := "const SHA512_224 Hash".toList,
            GolangURL := "https://golang.org/pkg/crypto/#SHA512_224".toList },
          { Name := "Chakma".toList, Category := "var".toList, Version := "1.1".toList,
            PackageName := "unicode".toList, Description := "var Chakma *RangeTable".toList,
            GolangURL := "https://golang.org/pkg/unicode/#Chakma".toList } ] :=
  (produceAPIRecord_pushes categoriesRegexMap (List.Perm.refl _) _ _ _).1.trans (by decide)

/-- C5 as stated fails: on the body of the three lines `pkg crypto, const
SHA512_224 Hash`, 70000 times `x`, and `pkg unicode, var Chakma *RangeTable`
the scanner stops at the second line, which does not fit into its buffer, and
`produceAPIRecord` pushes the record of the first line only, although the
third line is not blank, no comment and accepted by `getAPIRecord`. -/
theorem produceAPIRecord_stops_at_long_line :
    produceAPIRecord categoriesRegexMap
        "https://raw.githubusercontent.com/golang/go/master/api/go1.1.txt".toList
        (some ["pkg crypto, const SHA512_224 Hash".toList, List.replicate 70000 'x',
          "pkg unicode, var Chakma *RangeTable".toList])
        []
      = some
        [ { Name := "SHA512_224".toList, Category := "const".toList, Version := "1.1".toList,
            PackageName := "crypto".toList, Description := "const SHA512_224 Hash".toList,
            GolangURL := "https://golang.org/pkg/crypto/#SHA512_224".toList } ] ∧
      pushedRecord categoriesRegexMap "1.1".toList "pkg unicode, var Chakma *RangeTable".toList
        = some { Name := "Chakma".toList, Category := "var".toList, Version := "1.1".toList,
                 PackageName := "unicode".toList,
                 Description := "var Chakma *RangeTable".toList,
                 GolangURL := "https://golang.org/pkg/unicode/#Chakma".toList } := by
  refine ⟨?_, by decide⟩
  have hlong : decide (utf8Len (List.replicate 70000 'x') < 65536) = false := by
    rw [utf8Len_replicate_x]
    rfl
  have hshort : decide (utf8Len "pkg crypto, const SHA512_224 Hash".toList < 65536) = true := by
    decide
  show scanLoop categoriesRegexMap _ _ [] = _
  rw [scanLoop_eq categoriesRegexMap (List.Perm.refl _), List.takeWhile_cons, hshort, if_pos rfl,
    List.takeWhile_cons, hlong]
  decide

/-- C8, at the failing input: when `db.ExecContext` reports no error and
`RowsAffected` reports no error and a count of rows that is not one,
`insertRecordToDB` returns `err`, the nil error of `RowsAffected`: the failure
to insert exactly one row is answered with nil. -/
theorem insertRecordToDB_rows_not_one :
    insertRecordToDB { execErr := none, rows := 0, rowsErr := none } = none ∧
      insertRecordToDB { execErr := none, rows := 2, rowsErr := none } = none := by
  decide

end Gosince
